import Mathlib

/-!
Verification of the CoAP message codec and blockwise-transfer logic
(`coap.py`, a Python 2 module derived from the txThings library).

The embedding models Python byte strings as `List Nat` (each element a
byte value), Python `int` as `Nat` (or `Int` where a subtraction may go
negative and the source checks `value >= 0`), and raising an exception as
returning `none` / `Except.error`.  The `Options` container, a Python
dict from option number to a list of option objects, is modelled as an
association list in key-insertion order; every observable behaviour of
the dict goes through `sorted(...)` or key lookup, so this is faithful.
-/

/-- Bytes of `struct.pack("!L", v)`: four big-endian base-256 digits.
Defined only used for `v < 2^32`; the callers guard that range, mirroring
`struct.error` for out-of-range values. -/
def natBE4 (v : Nat) : List Nat :=
  [v / 16777216 % 256, v / 65536 % 256, v / 256 % 256, v % 256]

/-- Python `rawdata.lstrip(chr(0))`: drop leading zero bytes. -/
def lstrip0 (l : List Nat) : List Nat :=
  l.dropWhile (fun b => b == 0)

/-- The decode loop `for byte in rawdata: value = value * 256 + ord(byte)`
shared by `UintOption.decode` and `BlockOption.decode`. -/
def beVal (l : List Nat) : Nat :=
  l.foldl (fun a b => a * 256 + b) 0

/-- Fuel-driven helper for `minBE`; `fuel = v` always suffices. -/
def minBEAux : Nat → Nat → List Nat
  | 0, _ => []
  | fuel + 1, v => if v = 0 then [] else minBEAux fuel (v / 256) ++ [v % 256]

/-- Canonical minimal big-endian byte encoding of a natural number:
no leading zero byte, and zero encodes as the empty byte string.  This is
the specification-side description of the value encoding; the code-side
encoding is `lstrip0 (natBE4 v)` and the two are proved equal below
for `v < 2^32`. -/
def minBE (v : Nat) : List Nat :=
  minBEAux v v

/-- Fuel-driven helper for `bitLength`; `fuel = n` always suffices. -/
def bitLenAux : Nat → Nat → Nat
  | 0, _ => 0
  | fuel + 1, n => if n = 0 then 0 else bitLenAux fuel (n / 2) + 1

/-- Python `int.bit_length()`: number of binary digits, with
`bitLength 0 = 0`. -/
def bitLength (n : Nat) : Nat :=
  bitLenAux n n

/-- Source `readExtendedFieldValue(value, rawdata)`: decode the extended
part of a 4-bit option delta / length nibble.  `none` models the
exceptions: `IndexError` / `struct.error` when too few bytes remain and
`ValueError` for nibble 15. -/
def readExtendedFieldValue (value : Nat) (rawdata : List Nat) :
    Option (Nat × List Nat) :=
  if value < 13 then some (value, rawdata)
  else if value = 13 then
    match rawdata with
    | [] => none
    | b :: rest => some (b + 13, rest)
  else if value = 14 then
    match rawdata with
    | b1 :: b2 :: rest => some (b1 * 256 + b2 + 269, rest)
    | _ => none
  else none

/-- Source `writeExtendedFieldValue(value)`: encode an option delta or
length as a 4-bit nibble plus extension bytes.  The argument is `Int`
because the source computes `option.number - current_opt_num`, which the
`value >= 0` guard checks; `none` models `ValueError("Value out of range.")`. -/
def writeExtendedFieldValue (value : Int) : Option (Nat × List Nat) :=
  if 0 ≤ value ∧ value < 13 then some (value.toNat, [])
  else if 13 ≤ value ∧ value < 269 then
    some (13, [(value - 13).toNat])
  else if 269 ≤ value ∧ value < 65804 then
    some (14, [(value - 269).toNat / 256, (value - 269).toNat % 256])
  else none

/-- The three option-value representations of the source:
`StringOption`, `UintOption`, `BlockOption`. -/
inductive OptFormat where
  | str : OptFormat
  | uint : OptFormat
  | block : OptFormat
deriving DecidableEq

/-- Source `option_formats` dict; `StringOption` is the default for
unregistered numbers.  (Note the source registers number 16, not 17.) -/
def option_formats (n : Nat) : OptFormat :=
  if n = 6 ∨ n = 7 ∨ n = 12 ∨ n = 14 ∨ n = 16 ∨ n = 28 then OptFormat.uint
  else if n = 23 ∨ n = 27 then OptFormat.block
  else OptFormat.str

/-- An option value: the `value` attribute of a `StringOption`,
`UintOption` or `BlockOption` instance. -/
inductive OptValue where
  | str : List Nat → OptValue
  | uint : Nat → OptValue
  | block : (block_number : Nat) → (more : Bool) → (size_exponent : Nat) → OptValue
deriving DecidableEq

/-- Source `BlockOption.encode`'s
`(self.value[0] << 4) + (self.value[1] * 0x08) + self.value[2]`
(Python `True * 8 = 8`, `False * 8 = 0`). -/
def blockPacked (block_number : Nat) (more : Bool) (size_exponent : Nat) : Nat :=
  block_number * 16 + (if more then 8 else 0) + size_exponent

/-- Value encoding: `StringOption.encode` returns the raw bytes;
`UintOption.encode` and `BlockOption.encode` are
`struct.pack("!L", x).lstrip(chr(0))`, with `none` modelling the
`struct.error` raised when `x ≥ 2^32`. -/
def OptValue.encode : OptValue → Option (List Nat)
  | OptValue.str s => some s
  | OptValue.uint v => if v < 4294967296 then some (lstrip0 (natBE4 v)) else none
  | OptValue.block bn more se =>
    if blockPacked bn more se < 4294967296 then
      some (lstrip0 (natBE4 (blockPacked bn more se)))
    else none

/-- The `length` property of the three option classes.
`StringOption`: `len(self.value)`.
`UintOption`: `(bit_length() - 1) // 8 + 1` when positive, else 0.
`BlockOption`: `(self.value[0].bit_length() + 3) / 8 + 1`
(Python 2 integer division). -/
def OptValue.length : OptValue → Nat
  | OptValue.str s => s.length
  | OptValue.uint v => if 0 < v then (bitLength v - 1) / 8 + 1 else 0
  | OptValue.block bn _ _ => (bitLength bn + 3) / 8 + 1

/-- Decoding of a value from its raw bytes at an option number, per
`option_formats.get(option_number, StringOption)(option_number)` followed
by `option.decode(rawdata[:length])`.  `BlockOption.decode` unpacks
`(as_integer >> 4, bool(as_integer & 0x08), as_integer & 0x07)`. -/
def decodeOptionValue (n : Nat) (rawdata : List Nat) : OptValue :=
  match option_formats n with
  | OptFormat.str => OptValue.str rawdata
  | OptFormat.uint => OptValue.uint (beVal rawdata)
  | OptFormat.block =>
    OptValue.block (beVal rawdata / 16) (decide ((beVal rawdata / 8) % 2 = 1))
      (beVal rawdata % 8)

/-- One stored option instance: its number attribute and value attribute. -/
structure COpt where
  number : Nat
  value : OptValue
deriving DecidableEq

/-- The `Options._options` dict: option number mapped to the list of
option instances added under that number, in key-insertion order. -/
abbrev Options := List (Nat × List COpt)

/-- Source `Options.addOption`:
`self._options.setdefault(option.number, []).append(option)`. -/
def Options.addOption : Options → COpt → Options
  | [], o => [(o.number, [o])]
  | (k, vs) :: rest, o =>
    if k = o.number then (k, vs ++ [o]) :: rest
    else (k, vs) :: Options.addOption rest o

/-- Source `Options.getOption`: `self._options.get(number)`. -/
def Options.getOption (n : Nat) : Options → Option (List COpt)
  | [] => none
  | (k, vs) :: rest => if k = n then some vs else Options.getOption n rest

/-- Source `Options.deleteOption`: `self._options.pop(number)` when present. -/
def Options.deleteOption (n : Nat) (o : Options) : Options :=
  o.filter (fun p => !(p.1 == n))

/-- Insert one dict entry into a key-sorted list of entries, keeping order. -/
def insertSorted (p : Nat × List COpt) : Options → Options
  | [] => [p]
  | q :: rest => if p.1 ≤ q.1 then p :: q :: rest else q :: insertSorted p rest

/-- Ascending insertion sort of the dict entries by key, modelling
`sorted(self._options.values(), key=lambda x: x[0].number)` (every
instance in an entry's list carries the entry's key as its number, so
sorting by key is sorting by `x[0].number`). -/
def sortOpts : Options → Options
  | [] => []
  | p :: rest => insertSorted p (sortOpts rest)

/-- Source `Options.optionList`:
`chain.from_iterable(sorted(self._options.values(), key=lambda x: x[0].number))`. -/
def Options.optionList (o : Options) : List COpt :=
  (sortOpts o).flatMap (fun p => p.2)

/-- The body of the `for option in option_list` loop of `Options.encode`,
carrying `current_opt_num`.  Each iteration emits the header byte
`chr(((delta & 0x0F) << 4) + (length & 0x0F))`, the extended delta bytes,
the extended length bytes, and the value bytes. -/
def encodeOptsLoop : Nat → List COpt → Option (List Nat)
  | _, [] => some []
  | cur, o :: rest =>
    match writeExtendedFieldValue ((o.number : Int) - (cur : Int)) with
    | none => none
    | some (delta, extended_delta) =>
      match writeExtendedFieldValue ((OptValue.length o.value : Int)) with
      | none => none
      | some (length, extended_length) =>
        match OptValue.encode o.value with
        | none => none
        | some v =>
          match encodeOptsLoop o.number rest with
          | none => none
          | some tail =>
            some ((delta % 16 * 16 + length % 16) ::
              (extended_delta ++ extended_length ++ v ++ tail))

/-- Source `Options.encode`: iterate `optionList` with
`current_opt_num = 0`. -/
def Options.encode (o : Options) : Option (List Nat) :=
  encodeOptsLoop 0 (Options.optionList o)

/-- The `while len(rawdata) > 0` loop of `Options.decode`, with explicit
fuel (one unit per decoded option; the caller passes the byte count,
which suffices since every iteration consumes at least the header byte).
A leading `0xFF` byte stops the loop and returns the rest as payload.
The nibbles are `(dllen & 0xF0) >> 4` and `dllen & 0x0F`, written as
division and remainder, exact for all naturals.  `rawdata[:length]` and
`rawdata[length:]` are Python slices, which silently truncate when fewer
than `length` bytes remain. -/
def decodeOptsFuel (fuel cur : Nat) (acc : Options) (raw : List Nat) :
    Option (Options × List Nat) :=
  match raw with
  | [] => some (acc, [])
  | b :: rest =>
    if b = 255 then some (acc, rest)
    else
      match fuel with
      | 0 => none
      | fuel + 1 =>
        match readExtendedFieldValue (b / 16 % 16) rest with
        | none => none
        | some (delta, raw1) =>
          match readExtendedFieldValue (b % 16) raw1 with
          | none => none
          | some (length, raw2) =>
            decodeOptsFuel fuel (cur + delta)
              (Options.addOption acc
                ⟨cur + delta, decodeOptionValue (cur + delta) (raw2.take length)⟩)
              (raw2.drop length)

/-- Source `Options.decode`: run the loop on a fresh container with
`option_number = 0`, returning the mutated container and the payload. -/
def Options.decode (raw : List Nat) : Option (Options × List Nat) :=
  decodeOptsFuel raw.length 0 [] raw

/-- Source `Options._getBlock1`: first stored value at number 27, if any. -/
def Options.block1 (o : Options) : Option OptValue :=
  (Options.getOption 27 o).bind (fun vs => vs.head?.map (fun c => c.value))

/-- Source `Options._getBlock2`: first stored value at number 23, if any. -/
def Options.block2 (o : Options) : Option OptValue :=
  (Options.getOption 23 o).bind (fun vs => vs.head?.map (fun c => c.value))

/-- Source `Options._getETag`: first stored value at number 4, if any. -/
def Options.etag (o : Options) : Option OptValue :=
  (Options.getOption 4 o).bind (fun vs => vs.head?.map (fun c => c.value))

/-- Source `Options._setBlock1`: delete number 27 then add the block value. -/
def Options.setBlock1 (o : Options) (bn : Nat) (more : Bool) (se : Nat) : Options :=
  Options.addOption (Options.deleteOption 27 o) ⟨27, OptValue.block bn more se⟩

/-- Source `Options._setBlock2`: delete number 23 then add the block value. -/
def Options.setBlock2 (o : Options) (bn : Nat) (more : Bool) (se : Nat) : Options :=
  Options.addOption (Options.deleteOption 23 o) ⟨23, OptValue.block bn more se⟩

/-- Failure modes of the modelled operations.  `blockSequenceError` is the
exception raised at the block-contiguity checks (the source writes
`raise iot.error.NotImplemented()` there, the failure the specification
names BlockSequenceError); `resourceChanged` is `iot.error.ResourceChanged()`;
`invalidOperation` is the `ValueError` for calling a request-only or
response-only operation on the wrong message kind; `attributeError` is the
Python `AttributeError` from reading `.block_number` on a value that is
not a block tuple (for example when the option is absent and the getter
returned `None`). -/
inductive CoapError where
  | blockSequenceError : CoapError
  | resourceChanged : CoapError
  | invalidOperation : CoapError
  | attributeError : CoapError
deriving DecidableEq

/-- A CoAP message: the wire-relevant fields of the source `Message`
class (`version`, `mtype`, `mid`, `code`, `token`, `payload`, `opt`).
The transient transport fields (`remote`, `response_type`, ...) are not
part of the codec contract and are omitted. -/
structure Message where
  version : Nat
  mtype : Option Nat
  mid : Option Nat
  code : Nat
  token : List Nat
  payload : List Nat
  opt : Options
deriving DecidableEq

/-- Source `DEFAULT_BLOCK_SIZE_EXP = 2` (block size 64). -/
def DEFAULT_BLOCK_SIZE_EXP : Nat := 2

/-- Source `isRequest(code)`: `code >= 1 and code < 32`. -/
def isRequest (code : Nat) : Bool :=
  decide (1 ≤ code ∧ code < 32)

/-- Source `isResponse(code)`: `code >= 64 and code < 192`. -/
def isResponse (code : Nat) : Bool :=
  decide (64 ≤ code ∧ code < 192)

/-- Source `Message.encode`: byte 0 is
`(version << 6) + ((mtype & 0x03) << 4) + (len(token) & 0x0F)`, bytes
1-3 are `struct.pack('!BH', code, mid)`, then token, encoded options,
and `0xFF` plus payload iff the payload is non-empty.  `none` models the
`TypeError` when `mtype` or `mid` is unset and the `struct.error` when
`code` or `mid` is out of the packed range. -/
def Message.encode (m : Message) : Option (List Nat) :=
  match m.mtype, m.mid with
  | some t, some i =>
    if m.code < 256 ∧ i < 65536 then
      match Options.encode m.opt with
      | none => none
      | some ob =>
        some ((m.version * 64 + t % 4 * 16 + m.token.length % 16) ::
          m.code :: (i / 256) :: (i % 256) ::
          (m.token ++ ob ++ (if 0 < m.payload.length then 255 :: m.payload else [])))
    else none
  | _, _ => none

/-- Source `Message.decode`: unpack the 4-byte header (fewer bytes raise
`struct.error`, modelled `none`), check `version == 1` (else the fatal
`ValueError`), slice the token (a Python slice, truncating if short),
and delegate the rest to `Options.decode`.  The bit fields
`(vttkl & 0xC0) >> 6`, `(vttkl & 0x30) >> 4`, `vttkl & 0x0F` are written
as division and remainder, exact for all naturals. -/
def Message.decode (rawdata : List Nat) : Option Message :=
  match rawdata with
  | b0 :: b1 :: b2 :: b3 :: rest =>
    if b0 / 64 % 4 = 1 then
      match Options.decode (rest.drop (b0 % 16)) with
      | none => none
      | some (o, p) =>
        some { version := 1, mtype := some (b0 / 16 % 4),
               mid := some (b2 * 256 + b3), code := b1,
               token := rest.take (b0 % 16), payload := p, opt := o }
    else none
  | _ => none

/-- Source `Message.appendRequestBlock`: on a request accumulator, check
that the incoming block's Block1 offset equals the accumulated payload
length; on success append the payload, replace Block1, and adopt token
and message id.  Failure returns an error and leaves the accumulator
unused (the source raises before any mutation). -/
def Message.appendRequestBlock (self next_block : Message) :
    Except CoapError Message :=
  if isRequest self.code then
    match Options.block1 next_block.opt with
    | some (OptValue.block bn more se) =>
      if bn * 2 ^ (se + 4) = self.payload.length then
        Except.ok { self with
          payload := self.payload ++ next_block.payload,
          opt := Options.setBlock1 self.opt bn more se,
          token := next_block.token,
          mid := next_block.mid }
      else Except.error CoapError.blockSequenceError
    | some _ => Except.error CoapError.attributeError
    | none => Except.error CoapError.attributeError
  else Except.error CoapError.invalidOperation

/-- Source `Message.appendResponseBlock`: on a response accumulator, check
Block2 contiguity (else the block-sequence failure), then compare the
incoming block's ETag with the accumulator's (`iot.error.ResourceChanged`
on mismatch), then append payload, replace Block2, adopt token and
message id.  Failure returns an error before any mutation, as in the
source. -/
def Message.appendResponseBlock (self next_block : Message) :
    Except CoapError Message :=
  if isResponse self.code then
    match Options.block2 next_block.opt with
    | some (OptValue.block bn more se) =>
      if bn * 2 ^ (se + 4) = self.payload.length then
        if Options.etag next_block.opt ≠ Options.etag self.opt then
          Except.error CoapError.resourceChanged
        else
          Except.ok { self with
            payload := self.payload ++ next_block.payload,
            opt := Options.setBlock2 self.opt bn more se,
            token := next_block.token,
            mid := next_block.mid }
      else Except.error CoapError.blockSequenceError
    | some _ => Except.error CoapError.attributeError
    | none => Except.error CoapError.attributeError
  else Except.error CoapError.invalidOperation

/-- Source `Message.generateNextBlock2Request`: deep-copy the original
request, clear payload and message id, set Block2 to the next block to
fetch (negotiating the size down to `DEFAULT_BLOCK_SIZE_EXP` when the
server's first block offered a larger size), then delete Block1 and
Observe.  An absent or non-block Block2 on the response would raise
`AttributeError` in the source. -/
def Message.generateNextBlock2Request (self response : Message) :
    Except CoapError Message :=
  match Options.block2 response.opt with
  | some (OptValue.block bn _ se) =>
    let newOpt :=
      if bn = 0 ∧ DEFAULT_BLOCK_SIZE_EXP < se then
        Options.setBlock2 self.opt (2 ^ (se - DEFAULT_BLOCK_SIZE_EXP)) false
          DEFAULT_BLOCK_SIZE_EXP
      else
        Options.setBlock2 self.opt (bn + 1) false se
    Except.ok { self with
      payload := [],
      mid := none,
      opt := Options.deleteOption 6 (Options.deleteOption 27 newOpt) }
  | _ => Except.error CoapError.attributeError

/-- Well-formedness of a stored option value for round-trip purposes: the
value's representation matches the registered format for its number, its
bytes are bytes, string lengths fit the extended length field, integer
values fit `struct.pack("!L", .)`, and a block descriptor has a size
exponent below 8, a block number below `2^28`, and a non-zero packed
integer (the packed-zero descriptor `(0, False, 0)` is excluded: its
reported length 1 disagrees with its 0 encoded bytes). -/
def wfValue (n : Nat) (v : OptValue) : Bool :=
  match option_formats n, v with
  | OptFormat.str, OptValue.str s =>
    decide (s.length < 65804) && s.all (fun b => decide (b < 256))
  | OptFormat.uint, OptValue.uint u => decide (u < 4294967296)
  | OptFormat.block, OptValue.block bn more se =>
    decide (se < 8) && decide (bn < 268435456) &&
      !(decide (blockPacked bn more se = 0))
  | _, _ => false

/-- Well-formedness of the options container: option numbers are distinct
keys below the extended-field ceiling, every group is non-empty, every
stored instance carries its group's number, and every value is
well-formed. -/
abbrev WFOptions (o : Options) : Prop :=
  (o.map Prod.fst).Nodup ∧
    ∀ p ∈ o, p.1 < 65804 ∧ p.2 ≠ [] ∧
      ∀ c ∈ p.2, c.number = p.1 ∧ wfValue c.number c.value = true

/-- Well-formedness of a whole message: version 1, type and message id
set and in range, code a byte, token at most 8 bytes of bytes, payload
bytes, and a well-formed options container. -/
abbrev WFMessage (m : Message) : Prop :=
  m.version = 1 ∧ m.mtype ≠ none ∧ m.mtype.getD 0 < 4 ∧
    m.mid ≠ none ∧ m.mid.getD 0 < 65536 ∧ m.code < 256 ∧
    m.token.length ≤ 8 ∧ (∀ b ∈ m.token, b < 256) ∧
    (∀ b ∈ m.payload, b < 256) ∧ WFOptions m.opt

/-- The container produced by decoding an encoding: the stored options
regrouped in the order `encode` emits them. -/
def regroup (o : Options) : Options :=
  (Options.optionList o).foldl Options.addOption []

/-- Two containers hold the same ordered group of values at every option
number (the "options compared as ordered groups per option number"
equality of the round-trip property). -/
def Options.equivGroups (a b : Options) : Prop :=
  ∀ n, Options.getOption n a = Options.getOption n b

/-- The value of `current_opt_num` after the encode loop has visited a
list of options (the last visited option's number, or the start value). -/
def endNumber : Nat → List COpt → Nat
  | cur, [] => cur
  | _, o :: rest => endNumber o.number rest

/-- A message holding the packed-zero block descriptor `(0, False, 0)`
and a one-byte payload: the counterexample input for the round-trip
property. -/
def msgBlockZero : Message :=
  { version := 1, mtype := some 0, mid := some 0, code := 69, token := [],
    payload := [120], opt := [(23, [⟨23, OptValue.block 0 false 0⟩])] }

/-- What `decode (encode msgBlockZero)` actually produces: the over-stated
Block2 length makes the decoder consume the payload marker as the block
value and re-parse the payload byte as a second option. -/
def msgBlockZeroDecoded : Message :=
  { version := 1, mtype := some 0, mid := some 0, code := 69, token := [],
    payload := [],
    opt := [(23, [⟨23, OptValue.block 15 true 7⟩]),
            (30, [⟨30, OptValue.str []⟩])] }

/-- A well-formed message exercising repeated options, an ETag containing
`0xFF`, a block option, a zero-valued uint option, a token and a payload:
the round-trip witness. -/
def msgRoundTrip : Message :=
  { version := 1, mtype := some 2, mid := some 4660, code := 69,
    token := [170, 255], payload := [1, 255, 3],
    opt := [(11, [⟨11, OptValue.str [97, 98]⟩, ⟨11, OptValue.str [99]⟩]),
            (4, [⟨4, OptValue.str [255]⟩]),
            (23, [⟨23, OptValue.block 1 false 2⟩]),
            (12, [⟨12, OptValue.uint 0⟩])] }

/-- A message with empty payload whose message id is `0xFFFF`: its
encoding contains `0xFF` bytes inside the fixed header. -/
def msgEmptyPayload : Message :=
  { version := 1, mtype := some 0, mid := some 65535, code := 0, token := [],
    payload := [], opt := [] }

/-- A message with one option and a non-empty payload, used to witness
the payload-marker structure of `Message.encode`. -/
def msgMarker : Message :=
  { version := 1, mtype := some 0, mid := some 7, code := 69, token := [2],
    payload := [9, 255], opt := [(4, [⟨4, OptValue.str [170]⟩])] }

/-- A request accumulator with empty payload. -/
def reqAccum : Message :=
  { version := 1, mtype := some 0, mid := some 1, code := 1, token := [],
    payload := [], opt := [] }

/-- An incoming request block whose Block1 is `(1, False, 0)`: offset 16,
out of sequence for an empty accumulator. -/
def reqBlockGap : Message :=
  { version := 1, mtype := some 0, mid := some 2, code := 1, token := [8],
    payload := [5, 6], opt := [(27, [⟨27, OptValue.block 1 false 0⟩])] }

/-- A response accumulator with empty payload and ETag `[1]`. -/
def respAccum : Message :=
  { version := 1, mtype := some 2, mid := some 3, code := 69, token := [],
    payload := [], opt := [(4, [⟨4, OptValue.str [1]⟩])] }

/-- An incoming response block whose Block2 is `(2, False, 0)`: offset 32,
out of sequence for an empty accumulator. -/
def respBlockGap : Message :=
  { version := 1, mtype := some 2, mid := some 4, code := 69, token := [],
    payload := [7], opt := [(23, [⟨23, OptValue.block 2 false 0⟩])] }

/-- An incoming response block with contiguous Block2 `(0, False, 2)` but
ETag `[2]`, differing from `respAccum`'s ETag `[1]`. -/
def respBlockTag : Message :=
  { version := 1, mtype := some 2, mid := some 4, code := 69, token := [],
    payload := [7],
    opt := [(23, [⟨23, OptValue.block 0 false 2⟩]), (4, [⟨4, OptValue.str [2]⟩])] }

/-- An original request carrying Block1, Observe and a Uri-Path option. -/
def origReq : Message :=
  { version := 1, mtype := some 0, mid := some 5, code := 1, token := [3],
    payload := [],
    opt := [(27, [⟨27, OptValue.block 0 true 2⟩]), (6, [⟨6, OptValue.uint 0⟩]),
            (11, [⟨11, OptValue.str [97]⟩])] }

/-- A response whose Block2 is `(0, True, 6)`: the server offers 1024-byte
blocks on the first block. -/
def respBigBlock : Message :=
  { version := 1, mtype := some 2, mid := some 6, code := 69, token := [3],
    payload := [1], opt := [(23, [⟨23, OptValue.block 0 true 6⟩])] }

/-- A response whose Block2 is `(3, True, 2)`: a middle block at the
default size. -/
def respMidBlock : Message :=
  { version := 1, mtype := some 2, mid := some 6, code := 69, token := [3],
    payload := [1], opt := [(23, [⟨23, OptValue.block 3 true 2⟩])] }

/-! Arithmetic and byte-level lemmas. -/

theorem lstrip0_cons_zero (t : List Nat) : lstrip0 (0 :: t) = lstrip0 t := by
  simp [lstrip0, List.dropWhile]

theorem lstrip0_cons_ne (x : Nat) (t : List Nat) (hx : x ≠ 0) :
    lstrip0 (x :: t) = x :: t := by
  have hb : (x == 0) = false := by simpa using hx
  simp [lstrip0, List.dropWhile, hb]

theorem beVal_go (l : List Nat) (a : Nat) :
    l.foldl (fun a b => a * 256 + b) a = a * 256 ^ l.length + beVal l := by
  induction l generalizing a with
  | nil => simp [beVal]
  | cons x t ih =>
    have h1 := ih (a * 256 + x)
    have h2 := ih x
    simp only [beVal, List.foldl_cons, List.length_cons, Nat.zero_mul,
      Nat.zero_add] at *
    rw [h1, h2]
    ring

theorem beVal_lstrip0 (l : List Nat) : beVal (lstrip0 l) = beVal l := by
  induction l with
  | nil => rfl
  | cons x t ih =>
    by_cases hx : x = 0
    · subst hx
      rw [lstrip0_cons_zero, ih]
      simp only [beVal, List.foldl_cons, Nat.zero_mul, Nat.zero_add]
    · rw [lstrip0_cons_ne x t hx]

theorem beVal_natBE4 (v : Nat) (h : v < 4294967296) : beVal (natBE4 v) = v := by
  simp only [natBE4, beVal, List.foldl_cons, List.foldl_nil]
  omega

theorem bitLenAux_congr (f1 : Nat) : ∀ f2 n, n ≤ f1 → n ≤ f2 →
    bitLenAux f1 n = bitLenAux f2 n := by
  induction f1 with
  | zero =>
    intro f2 n h1 _
    interval_cases n
    cases f2 <;> simp [bitLenAux]
  | succ f ih =>
    intro f2 n h1 h2
    rcases Nat.eq_zero_or_pos n with rfl | hn
    · cases f2 <;> simp [bitLenAux]
    · obtain ⟨g, rfl⟩ : ∃ g, f2 = g + 1 := ⟨f2 - 1, by omega⟩
      obtain ⟨m, rfl⟩ : ∃ m, n = m + 1 := ⟨n - 1, by omega⟩
      simp only [bitLenAux, Nat.succ_ne_zero, if_false]
      rw [ih g ((m + 1) / 2) (by omega) (by omega)]

theorem bitLength_zero : bitLength 0 = 0 := rfl

theorem bitLength_step (n : Nat) (h : 0 < n) :
    bitLength n = bitLength (n / 2) + 1 := by
  obtain ⟨m, rfl⟩ : ∃ m, n = m + 1 := ⟨n - 1, by omega⟩
  show bitLenAux (m + 1) (m + 1) = _
  simp only [bitLenAux, Nat.succ_ne_zero, if_false]
  rw [bitLenAux_congr m ((m + 1) / 2) ((m + 1) / 2) (by omega) le_rfl]
  rfl

theorem bitLength_le_iff (k : Nat) : ∀ n, bitLength n ≤ k ↔ n < 2 ^ k := by
  induction k with
  | zero =>
    intro n
    constructor
    · intro h
      rcases Nat.eq_zero_or_pos n with h0 | h0
      · simp [h0]
      · rw [bitLength_step n h0] at h; omega
    · intro h
      have h0 : n = 0 := by omega
      simp [h0, bitLength_zero]
  | succ k ih =>
    intro n
    rcases Nat.eq_zero_or_pos n with h0 | h0
    · simp [h0, bitLength_zero, Nat.pos_pow_of_pos]
    · rw [bitLength_step n h0]
      rw [Nat.succ_le_succ_iff, ih (n / 2), pow_succ]
      rw [Nat.div_lt_iff_lt_mul (by norm_num : (0:Nat) < 2)]

theorem lt_bitLength_iff (k n : Nat) : k < bitLength n ↔ 2 ^ k ≤ n := by
  constructor
  · intro h
    by_contra hc
    have h1 : n < 2 ^ k := by omega
    have h2 : bitLength n ≤ k := (bitLength_le_iff k n).mpr h1
    omega
  · intro h
    by_contra hc
    have h2 : bitLength n ≤ k := by omega
    have h1 : n < 2 ^ k := (bitLength_le_iff k n).mp h2
    omega

theorem bitLength_pos (n : Nat) (h : 0 < n) : 0 < bitLength n := by
  rw [lt_bitLength_iff]; simpa

theorem minBEAux_congr (f1 : Nat) : ∀ f2 v, v ≤ f1 → v ≤ f2 →
    minBEAux f1 v = minBEAux f2 v := by
  induction f1 with
  | zero =>
    intro f2 v h1 _
    interval_cases v
    cases f2 <;> simp [minBEAux]
  | succ f ih =>
    intro f2 v h1 h2
    rcases Nat.eq_zero_or_pos v with rfl | hv
    · cases f2 <;> simp [minBEAux]
    · obtain ⟨g, rfl⟩ : ∃ g, f2 = g + 1 := ⟨f2 - 1, by omega⟩
      obtain ⟨m, rfl⟩ : ∃ m, v = m + 1 := ⟨v - 1, by omega⟩
      simp only [minBEAux, Nat.succ_ne_zero, if_false]
      rw [ih g ((m + 1) / 256) (by omega) (by omega)]

theorem minBE_zero : minBE 0 = [] := rfl

theorem minBE_step (v : Nat) (h : 0 < v) :
    minBE v = minBE (v / 256) ++ [v % 256] := by
  obtain ⟨m, rfl⟩ : ∃ m, v = m + 1 := ⟨v - 1, by omega⟩
  show minBEAux (m + 1) (m + 1) = _
  simp only [minBEAux, Nat.succ_ne_zero, if_false]
  rw [minBEAux_congr m ((m + 1) / 256) ((m + 1) / 256) (by omega) le_rfl]
  rfl

theorem minBE_small (v : Nat) (h0 : 0 < v) (h : v < 256) : minBE v = [v] := by
  rw [minBE_step v h0]
  have h1 : v / 256 = 0 := by omega
  have h2 : v % 256 = v := by omega
  rw [h1, h2, minBE_zero, List.nil_append]

theorem lstrip0_natBE4 (v : Nat) (h : v < 4294967296) :
    lstrip0 (natBE4 v) = minBE v := by
  rcases Nat.eq_zero_or_pos v with rfl | h0
  · rfl
  by_cases h1 : v < 256
  · have e : natBE4 v = [0, 0, 0, v] := by
      simp only [natBE4, List.cons.injEq, and_true]
      omega
    rw [e, lstrip0_cons_zero, lstrip0_cons_zero, lstrip0_cons_zero,
      lstrip0_cons_ne v [] (by omega), minBE_small v h0 h1]
  by_cases h2 : v < 65536
  · have e : natBE4 v = [0, 0, v / 256, v % 256] := by
      simp only [natBE4, List.cons.injEq, and_true]
      omega
    have hm : minBE v = [v / 256, v % 256] := by
      rw [minBE_step v h0, minBE_small (v / 256) (by omega) (by omega)]
      rfl
    rw [e, lstrip0_cons_zero, lstrip0_cons_zero,
      lstrip0_cons_ne (v / 256) [v % 256] (by omega), hm]
  by_cases h3 : v < 16777216
  · have e : natBE4 v = [0, v / 65536, v / 256 % 256, v % 256] := by
      simp only [natBE4, List.cons.injEq, and_true]
      omega
    have hd : v / 256 / 256 = v / 65536 := by omega
    have hm : minBE v = [v / 65536, v / 256 % 256, v % 256] := by
      rw [minBE_step v h0, minBE_step (v / 256) (by omega),
        minBE_small (v / 256 / 256) (by omega) (by omega), hd]
      rfl
    rw [e, lstrip0_cons_zero,
      lstrip0_cons_ne (v / 65536) [v / 256 % 256, v % 256] (by omega), hm]
  · have e : natBE4 v = [v / 16777216, v / 65536 % 256, v / 256 % 256, v % 256] := by
      simp only [natBE4, List.cons.injEq, and_true]
      omega
    have hd1 : v / 256 / 256 = v / 65536 := by omega
    have hd2 : v / 256 / 256 / 256 = v / 16777216 := by omega
    have hm : minBE v = [v / 16777216, v / 65536 % 256, v / 256 % 256, v % 256] := by
      rw [minBE_step v h0, minBE_step (v / 256) (by omega),
        minBE_step (v / 256 / 256) (by omega),
        minBE_small (v / 256 / 256 / 256) (by omega) (by omega), hd2, hd1]
      rfl
    rw [e, lstrip0_cons_ne (v / 16777216)
      [v / 65536 % 256, v / 256 % 256, v % 256] (by omega), hm]

theorem minBE_length (v : Nat) (h0 : 0 < v) (h : v < 4294967296) :
    (minBE v).length = (bitLength v - 1) / 8 + 1 := by
  have hlo : 0 < bitLength v := bitLength_pos v h0
  by_cases h1 : v < 256
  · have hle : bitLength v ≤ 8 := by
      rw [bitLength_le_iff]; norm_num; omega
    rw [minBE_small v h0 h1]
    simp only [List.length_singleton]
    omega
  by_cases h2 : v < 65536
  · have hle : bitLength v ≤ 16 := by
      rw [bitLength_le_iff]; norm_num; omega
    have hgt : 8 < bitLength v := by
      rw [lt_bitLength_iff]; norm_num; omega
    rw [minBE_step v h0, minBE_small (v / 256) (by omega) (by omega)]
    simp only [List.length_append, List.length_singleton]
    omega
  by_cases h3 : v < 16777216
  · have hle : bitLength v ≤ 24 := by
      rw [bitLength_le_iff]; norm_num; omega
    have hgt : 16 < bitLength v := by
      rw [lt_bitLength_iff]; norm_num; omega
    rw [minBE_step v h0, minBE_step (v / 256) (by omega),
      minBE_small (v / 256 / 256) (by omega) (by omega)]
    simp only [List.length_append, List.length_singleton]
    omega
  · have hle : bitLength v ≤ 32 := by
      rw [bitLength_le_iff]; norm_num; omega
    have hgt : 24 < bitLength v := by
      rw [lt_bitLength_iff]; norm_num; omega
    rw [minBE_step v h0, minBE_step (v / 256) (by omega),
      minBE_step (v / 256 / 256) (by omega),
      minBE_small (v / 256 / 256 / 256) (by omega) (by omega)]
    simp only [List.length_append, List.length_singleton]
    omega

theorem bitLength_blockPacked (bn : Nat) (more : Bool) (se : Nat)
    (hbn : 0 < bn) (hse : se < 8) :
    bitLength (blockPacked bn more se) = bitLength bn + 4 := by
  have hb0 : 0 < bitLength bn := bitLength_pos bn hbn
  have hb1 : bn < 2 ^ bitLength bn := (bitLength_le_iff (bitLength bn) bn).mp le_rfl
  have hb2 : 2 ^ (bitLength bn - 1) ≤ bn :=
    (lt_bitLength_iff (bitLength bn - 1) bn).mp (by omega)
  have hpow4 : 2 ^ (bitLength bn + 4) = 2 ^ bitLength bn * 16 := by
    rw [pow_add]; norm_num
  have hpow3 : 2 ^ (bitLength bn + 3) = 2 ^ (bitLength bn - 1) * 16 := by
    have he : bitLength bn + 3 = bitLength bn - 1 + 4 := by omega
    rw [he, pow_add]; norm_num
  have hup : bitLength (blockPacked bn more se) ≤ bitLength bn + 4 := by
    rw [bitLength_le_iff, hpow4]
    cases more <;> simp [blockPacked] <;> omega
  have hdn : bitLength bn + 3 < bitLength (blockPacked bn more se) := by
    rw [lt_bitLength_iff, hpow3]
    cases more <;> simp [blockPacked] <;> omega
  omega

/-! Extended field codec lemmas. -/

theorem writeExtendedFieldValue_bounds (value : Int) (n : Nat) (ext : List Nat)
    (h : writeExtendedFieldValue value = some (n, ext)) :
    0 ≤ value ∧ value < 65804 ∧ n ≤ 14 := by
  unfold writeExtendedFieldValue at h
  split at h
  · simp only [Option.some.injEq, Prod.mk.injEq] at h
    omega
  · split at h
    · simp only [Option.some.injEq, Prod.mk.injEq] at h
      omega
    · split at h
      · simp only [Option.some.injEq, Prod.mk.injEq] at h
        omega
      · exact absurd h (by simp)

theorem readExtendedFieldValue_write (value : Int) (n : Nat) (ext : List Nat)
    (h : writeExtendedFieldValue value = some (n, ext)) (rest : List Nat) :
    readExtendedFieldValue n (ext ++ rest) = some (value.toNat, rest) := by
  unfold writeExtendedFieldValue at h
  split at h
  · rename_i hv
    simp only [Option.some.injEq, Prod.mk.injEq] at h
    obtain ⟨rfl, rfl⟩ := h
    rw [readExtendedFieldValue.eq_def, if_pos (by omega)]
    simp only [List.nil_append]
  · split at h
    · rename_i hv
      simp only [Option.some.injEq, Prod.mk.injEq] at h
      obtain ⟨rfl, rfl⟩ := h
      have e : readExtendedFieldValue 13 ((value - 13).toNat :: rest) =
          some ((value - 13).toNat + 13, rest) := rfl
      simp only [List.cons_append, List.nil_append, e, Option.some.injEq,
        Prod.mk.injEq, and_true]
      omega
    · split at h
      · rename_i hv
        simp only [Option.some.injEq, Prod.mk.injEq] at h
        obtain ⟨rfl, rfl⟩ := h
        have e : readExtendedFieldValue 14 ((value - 269).toNat / 256 ::
            (value - 269).toNat % 256 :: rest) =
            some ((value - 269).toNat / 256 * 256 +
              (value - 269).toNat % 256 + 269, rest) := rfl
        simp only [List.cons_append, List.nil_append, e, Option.some.injEq,
          Prod.mk.injEq, and_true]
        omega
      · exact absurd h (by simp)

theorem writeExtendedFieldValue_isSome (value : Int) (h0 : 0 ≤ value)
    (h : value < 65804) : (writeExtendedFieldValue value).isSome = true := by
  unfold writeExtendedFieldValue
  split
  · rfl
  · split
    · rfl
    · split
      · rfl
      · omega

theorem writeExtendedFieldValue_none (value : Int) (h : 65804 ≤ value) :
    writeExtendedFieldValue value = none := by
  unfold writeExtendedFieldValue
  rw [if_neg (by omega), if_neg (by omega), if_neg (by omega)]

/-! Option value codec lemmas. -/

theorem optionValueLength_lt (n : Nat) (v : OptValue)
    (h : wfValue n v = true) : OptValue.length v < 65804 := by
  cases v with
  | str s =>
    unfold wfValue at h
    rcases hf : option_formats n with f | f | f <;> rw [hf] at h <;>
      simp only [Bool.and_eq_true, decide_eq_true_eq] at h
    · exact h.1
    · exact absurd h (by simp)
    · exact absurd h (by simp)
  | uint u =>
    have hb : bitLength u ≤ 32 ∨ u = 0 := by
      unfold wfValue at h
      rcases hf : option_formats n with f | f | f <;> rw [hf] at h <;>
        simp only [decide_eq_true_eq] at h
      · exact absurd h (by simp)
      · left
        rw [bitLength_le_iff]
        norm_num
        omega
      · exact absurd h (by simp)
    rcases hb with hb | rfl
    · simp only [OptValue.length]
      split <;> omega
    · simp [OptValue.length]
  | block bn more se =>
    have hb : bitLength bn ≤ 28 := by
      unfold wfValue at h
      rcases hf : option_formats n with f | f | f <;> rw [hf] at h <;>
        simp only [Bool.and_eq_true, decide_eq_true_eq] at h
      · exact absurd h (by simp)
      · exact absurd h (by simp)
      · rw [bitLength_le_iff]
        norm_num
        omega
    simp only [OptValue.length]
    omega

theorem wfValue_codec (n : Nat) (v : OptValue) (h : wfValue n v = true) :
    ∃ bs, OptValue.encode v = some bs ∧ bs.length = OptValue.length v ∧
      decodeOptionValue n bs = v := by
  cases v with
  | str s =>
    have hf : option_formats n = OptFormat.str := by
      unfold wfValue at h
      rcases hf : option_formats n with f | f | f <;> rw [hf] at h <;>
        first | rfl | exact absurd h (by simp)
    exact ⟨s, rfl, rfl, by rw [decodeOptionValue, hf]⟩
  | uint u =>
    have hf : option_formats n = OptFormat.uint := by
      unfold wfValue at h
      rcases hf : option_formats n with f | f | f <;> rw [hf] at h <;>
        first | rfl | exact absurd h (by simp)
    have hu : u < 4294967296 := by
      unfold wfValue at h
      rw [hf] at h
      simpa using h
    refine ⟨lstrip0 (natBE4 u), ?_, ?_, ?_⟩
    · rw [OptValue.encode, if_pos hu]
    · rw [lstrip0_natBE4 u hu]
      rcases Nat.eq_zero_or_pos u with rfl | h0
      · simp [OptValue.length, minBE_zero]
      · rw [minBE_length u h0 hu]
        simp only [OptValue.length]
        rw [if_pos h0]
    · rw [decodeOptionValue, hf, beVal_lstrip0, beVal_natBE4 u hu]
  | block bn more se =>
    have hf : option_formats n = OptFormat.block := by
      unfold wfValue at h
      rcases hf : option_formats n with f | f | f <;> rw [hf] at h <;>
        first | rfl | exact absurd h (by simp)
    have hb : se < 8 ∧ bn < 268435456 ∧ blockPacked bn more se ≠ 0 := by
      unfold wfValue at h
      rw [hf] at h
      simp only [Bool.and_eq_true, Bool.not_eq_true', decide_eq_false_iff_not,
        decide_eq_true_eq] at h
      exact ⟨h.1.1, h.1.2, h.2⟩
    obtain ⟨hse, hbn, hp0⟩ := hb
    have hplt : blockPacked bn more se < 4294967296 := by
      simp only [blockPacked]
      cases more <;> simp <;> omega
    refine ⟨lstrip0 (natBE4 (blockPacked bn more se)), ?_, ?_, ?_⟩
    · rw [OptValue.encode, if_pos hplt]
    · rw [lstrip0_natBE4 _ hplt, minBE_length _ (by omega) hplt]
      simp only [OptValue.length]
      rcases Nat.eq_zero_or_pos bn with rfl | hbn0
      · have hsmall : blockPacked 0 more se < 16 := by
          simp only [blockPacked]
          cases more <;> simp <;> omega
        have hbl : bitLength (blockPacked 0 more se) ≤ 4 := by
          rw [bitLength_le_iff]
          norm_num
          omega
        have hbl0 : 0 < bitLength (blockPacked 0 more se) :=
          bitLength_pos _ (by omega)
        rw [bitLength_zero]
        omega
      · rw [bitLength_blockPacked bn more se hbn0 hse]
        omega
    · rw [decodeOptionValue, hf, beVal_lstrip0, beVal_natBE4 _ hplt]
      have e1 : blockPacked bn more se / 16 = bn := by
        simp only [blockPacked]
        cases more <;> simp <;> omega
      have e2 : decide ((blockPacked bn more se / 8) % 2 = 1) = more := by
        simp only [blockPacked]
        cases more <;> simp <;> omega
      have e3 : blockPacked bn more se % 8 = se := by
        simp only [blockPacked]
        cases more <;> simp <;> omega
      rw [e1, e2, e3]

/-! Options container lemmas. -/

theorem getOption_addOption (l : Options) (o : COpt) (n : Nat) :
    Options.getOption n (Options.addOption l o) =
      if o.number = n then some ((Options.getOption n l).getD [] ++ [o])
      else Options.getOption n l := by
  induction l with
  | nil =>
    by_cases h : o.number = n <;>
      simp [Options.addOption, Options.getOption, h]
  | cons q rest ih =>
    obtain ⟨k, vs⟩ := q
    by_cases hk : k = o.number
    · rw [Options.addOption, if_pos hk]
      by_cases hn : k = n
      · rw [Options.getOption, if_pos hn, if_pos (hk ▸ hn),
          Options.getOption, if_pos hn]
        rfl
      · have hon : o.number ≠ n := fun he => hn (by rw [hk, he])
        rw [Options.getOption, if_neg hn, if_neg hon, Options.getOption,
          if_neg hn]
    · rw [Options.addOption, if_neg hk]
      by_cases hn : k = n
      · have hon : o.number ≠ n := fun he => hk (by rw [he, hn])
        rw [Options.getOption, if_pos hn, if_neg hon, Options.getOption,
          if_pos hn]
      · rw [Options.getOption, if_neg hn, ih, Options.getOption, if_neg hn]

theorem addOption_keys (l : Options) (o : COpt) :
    (Options.addOption l o).map Prod.fst =
      if o.number ∈ l.map Prod.fst then l.map Prod.fst
      else l.map Prod.fst ++ [o.number] := by
  induction l with
  | nil => simp [Options.addOption]
  | cons q rest ih =>
    obtain ⟨k, vs⟩ := q
    by_cases hk : k = o.number
    · rw [Options.addOption, if_pos hk]
      simp [hk.symm]
    · rw [Options.addOption, if_neg hk]
      by_cases hm : o.number ∈ rest.map Prod.fst
      · simp only [List.map_cons, List.mem_cons]
        rw [if_pos (Or.inr hm)]
        simp only [ih, if_pos hm]
      · simp only [List.map_cons, List.mem_cons]
        rw [if_neg (by tauto)]
        simp only [ih, if_neg hm]
        rfl

theorem addOption_nodup (l : Options) (o : COpt)
    (h : (l.map Prod.fst).Nodup) :
    ((Options.addOption l o).map Prod.fst).Nodup := by
  rw [addOption_keys]
  by_cases hm : o.number ∈ l.map Prod.fst
  · rwa [if_pos hm]
  · rw [if_neg hm]
    simp only [List.nodup_append, List.nodup_singleton, true_and]
    refine ⟨h, ?_⟩
    intro a ha hb
    simp only [List.mem_singleton] at hb
    subst hb
    exact hm ha

theorem addOption_homog (l : Options) (o : COpt)
    (h : ∀ p ∈ l, ∀ c ∈ p.2, c.number = p.1) :
    ∀ p ∈ Options.addOption l o, ∀ c ∈ p.2, c.number = p.1 := by
  induction l with
  | nil =>
    intro p hp c hc
    simp only [Options.addOption, List.mem_singleton] at hp
    subst hp
    simp only [List.mem_singleton] at hc
    subst hc
    rfl
  | cons q rest ih =>
    obtain ⟨k, vs⟩ := q
    intro p hp c hc
    by_cases hk : k = o.number
    · rw [Options.addOption, if_pos hk] at hp
      rcases List.mem_cons.mp hp with rfl | hmem
      · rcases List.mem_append.mp hc with hcv | hco
        · exact h (k, vs) (List.mem_cons_self _ _) c hcv
        · simp only [List.mem_singleton] at hco
          subst hco
          exact hk.symm
      · exact h p (List.mem_cons_of_mem _ hmem) c hc
    · rw [Options.addOption, if_neg hk] at hp
      rcases List.mem_cons.mp hp with rfl | hmem
      · exact h (k, vs) (List.mem_cons_self _ _) c hc
      · exact ih (fun r hr => h r (List.mem_cons_of_mem _ hr)) p hmem c hc

theorem foldl_addOption_nodup (os : List COpt) :
    ∀ acc : Options, (acc.map Prod.fst).Nodup →
      ((os.foldl Options.addOption acc).map Prod.fst).Nodup := by
  induction os with
  | nil => intro acc h; exact h
  | cons o rest ih =>
    intro acc h
    exact ih (Options.addOption acc o) (addOption_nodup acc o h)

theorem foldl_addOption_homog (os : List COpt) :
    ∀ acc : Options, (∀ p ∈ acc, ∀ c ∈ p.2, c.number = p.1) →
      ∀ p ∈ os.foldl Options.addOption acc, ∀ c ∈ p.2, c.number = p.1 := by
  induction os with
  | nil => intro acc h; exact h
  | cons o rest ih =>
    intro acc h
    exact ih (Options.addOption acc o) (addOption_homog acc o h)

theorem getOption_foldl_addOption (os : List COpt) :
    ∀ (acc : Options) (n : Nat),
      Options.getOption n (os.foldl Options.addOption acc) =
        if os.filter (fun o => o.number == n) = [] then Options.getOption n acc
        else some ((Options.getOption n acc).getD [] ++
          os.filter (fun o => o.number == n)) := by
  induction os with
  | nil =>
    intro acc n
    simp [List.filter_nil]
  | cons o rest ih =>
    intro acc n
    simp only [List.foldl_cons]
    by_cases ho : o.number = n
    · have hfo : (o :: rest).filter (fun o => o.number == n) =
          o :: rest.filter (fun o => o.number == n) :=
        List.filter_cons_of_pos (by simpa using ho)
      rw [ih (Options.addOption acc o) n, hfo]
      rw [getOption_addOption acc o n, if_pos ho]
      by_cases hr : rest.filter (fun o => o.number == n) = []
      · rw [if_pos hr, hr]
        simp
      · rw [if_neg hr, if_neg (by simp)]
        simp
    · have hfo : (o :: rest).filter (fun o => o.number == n) =
          rest.filter (fun o => o.number == n) :=
        List.filter_cons_of_neg (by simpa using ho)
      rw [ih (Options.addOption acc o) n, hfo,
        getOption_addOption acc o n, if_neg ho]

theorem mem_insertSorted (p x : Nat × List COpt) (l : Options) :
    x ∈ insertSorted p l ↔ x = p ∨ x ∈ l := by
  induction l with
  | nil => simp [insertSorted]
  | cons q rest ih =>
    by_cases h : p.1 ≤ q.1
    · rw [insertSorted, if_pos h]
      exact List.mem_cons
    · rw [insertSorted, if_neg h]
      simp only [List.mem_cons, ih]
      tauto

theorem insertSorted_perm (p : Nat × List COpt) (l : Options) :
    (insertSorted p l).Perm (p :: l) := by
  induction l with
  | nil => simp [insertSorted]
  | cons q rest ih =>
    by_cases h : p.1 ≤ q.1
    · rw [insertSorted, if_pos h]
    · rw [insertSorted, if_neg h]
      exact (List.Perm.cons q ih).trans (List.Perm.swap p q rest)

theorem sortOpts_perm (l : Options) : (sortOpts l).Perm l := by
  induction l with
  | nil => simp [sortOpts]
  | cons p rest ih =>
    exact ((insertSorted_perm p (sortOpts rest)).trans (List.Perm.cons p ih))

theorem pairwise_insertSorted (p : Nat × List COpt) (l : Options)
    (h : l.Pairwise (fun a b => a.1 ≤ b.1)) :
    (insertSorted p l).Pairwise (fun a b => a.1 ≤ b.1) := by
  induction l with
  | nil => simp [insertSorted]
  | cons q rest ih =>
    rw [List.pairwise_cons] at h
    by_cases hle : p.1 ≤ q.1
    · rw [insertSorted, if_pos hle]
      rw [List.pairwise_cons]
      constructor
      · intro x hx
        rcases List.mem_cons.mp hx with rfl | hx
        · exact hle
        · exact le_trans hle (h.1 x hx)
      · rw [List.pairwise_cons]
        exact h
    · rw [insertSorted, if_neg hle]
      rw [List.pairwise_cons]
      constructor
      · intro x hx
        rcases (mem_insertSorted p x rest).mp hx with rfl | hx
        · omega
        · exact h.1 x hx
      · exact ih h.2

theorem sortOpts_pairwise (l : Options) :
    (sortOpts l).Pairwise (fun a b => a.1 ≤ b.1) := by
  induction l with
  | nil => simp [sortOpts]
  | cons p rest ih => exact pairwise_insertSorted p (sortOpts rest) ih

theorem getOption_insertSorted_ne (p : Nat × List COpt) (l : Options) (n : Nat)
    (h : p.1 ≠ n) :
    Options.getOption n (insertSorted p l) = Options.getOption n l := by
  induction l with
  | nil => simp [insertSorted, Options.getOption, h]
  | cons q rest ih =>
    by_cases hle : p.1 ≤ q.1
    · rw [insertSorted, if_pos hle]
      obtain ⟨k, vs⟩ := p
      rw [Options.getOption, if_neg h]
    · rw [insertSorted, if_neg hle]
      obtain ⟨k, vs⟩ := q
      by_cases hk : k = n
      · rw [Options.getOption, if_pos hk, Options.getOption, if_pos hk]
      · rw [Options.getOption, if_neg hk, Options.getOption, if_neg hk, ih]

theorem getOption_insertSorted_eq (p : Nat × List COpt) (l : Options)
    (h : p.1 ∉ l.map Prod.fst) :
    Options.getOption p.1 (insertSorted p l) = some p.2 := by
  induction l with
  | nil =>
    obtain ⟨k, vs⟩ := p
    simp [insertSorted, Options.getOption]
  | cons q rest ih =>
    simp only [List.map_cons, List.mem_cons] at h
    by_cases hle : p.1 ≤ q.1
    · rw [insertSorted, if_pos hle]
      obtain ⟨k, vs⟩ := p
      rw [Options.getOption, if_pos rfl]
    · rw [insertSorted, if_neg hle]
      obtain ⟨k, vs⟩ := q
      rw [Options.getOption, if_neg (by tauto)]
      exact ih (by tauto)

theorem getOption_sortOpts (l : Options) (h : (l.map Prod.fst).Nodup) (n : Nat) :
    Options.getOption n (sortOpts l) = Options.getOption n l := by
  induction l with
  | nil => rfl
  | cons p rest ih =>
    simp only [List.map_cons, List.nodup_cons] at h
    obtain ⟨k, vs⟩ := p
    by_cases hk : k = n
    · subst hk
      rw [Options.getOption, if_pos rfl]
      have hnot : k ∉ (sortOpts rest).map Prod.fst := by
        intro hc
        exact h.1 ((List.Perm.mem_iff (List.Perm.map Prod.fst
          (sortOpts_perm rest))).mp hc)
      exact getOption_insertSorted_eq (k, vs) (sortOpts rest) hnot
    · rw [Options.getOption, if_neg hk, sortOpts,
        getOption_insertSorted_ne (k, vs) (sortOpts rest) n hk]
      exact ih h.2

theorem getOption_eq_none (l : Options) (n : Nat)
    (h : n ∉ l.map Prod.fst) : Options.getOption n l = none := by
  induction l with
  | nil => rfl
  | cons q rest ih =>
    obtain ⟨k, vs⟩ := q
    simp only [List.map_cons, List.mem_cons] at h
    rw [Options.getOption, if_neg (by tauto)]
    exact ih (by tauto)

theorem getOption_mem (l : Options) (n : Nat) (vs : List COpt)
    (h : Options.getOption n l = some vs) : (n, vs) ∈ l := by
  induction l with
  | nil => exact absurd h (by simp [Options.getOption])
  | cons q rest ih =>
    obtain ⟨k, vs'⟩ := q
    rw [Options.getOption] at h
    by_cases hk : k = n
    · rw [if_pos hk] at h
      simp only [Option.some.injEq] at h
      subst h
      subst hk
      exact List.mem_cons_self _ _
    · rw [if_neg hk] at h
      exact List.mem_cons_of_mem _ (ih h)

theorem filter_flat_groups (l : Options) (hnd : (l.map Prod.fst).Nodup)
    (hh : ∀ p ∈ l, ∀ c ∈ p.2, c.number = p.1) (n : Nat) :
    (l.flatMap (fun p => p.2)).filter (fun c => c.number == n) =
      (Options.getOption n l).getD [] := by
  induction l with
  | nil => simp [Options.getOption]
  | cons q rest ih =>
    obtain ⟨k, vs⟩ := q
    simp only [List.flatMap_cons, List.filter_append]
    simp only [List.map_cons, List.nodup_cons] at hnd
    have hq : ∀ c ∈ vs, c.number = k :=
      fun c hc => hh (k, vs) (List.mem_cons_self _ _) c hc
    have ihr := ih hnd.2 (fun p hp => hh p (List.mem_cons_of_mem _ hp))
    by_cases hk : k = n
    · subst hk
      have h1 : vs.filter (fun c => c.number == k) = vs := by
        rw [List.filter_eq_self]
        intro c hc
        simpa using hq c hc
      have h2 : (rest.flatMap (fun p => p.2)).filter (fun c => c.number == k) =
          [] := by
        rw [ihr, getOption_eq_none rest k hnd.1]
        rfl
      rw [h1, h2, Options.getOption, if_pos rfl, List.append_nil]
      rfl
    · have h1 : vs.filter (fun c => c.number == n) = [] := by
        rw [List.filter_eq_nil_iff]
        intro c hc
        simp [hq c hc, hk]
      rw [h1, List.nil_append, Options.getOption, if_neg hk, ihr]

theorem pairwise_const (L : List Nat) (k : Nat) (h : ∀ x ∈ L, x = k) :
    L.Pairwise (· ≤ ·) := by
  induction L with
  | nil => simp
  | cons x rest ih =>
    rw [List.pairwise_cons]
    constructor
    · intro y hy
      rw [h x (List.mem_cons_self _ _), h y (List.mem_cons_of_mem _ hy)]
    · exact ih (fun y hy => h y (List.mem_cons_of_mem _ hy))

theorem mem_flat_number (l : Options)
    (hh : ∀ p ∈ l, ∀ c ∈ p.2, c.number = p.1) (y : Nat)
    (hy : y ∈ (l.flatMap (fun p => p.2)).map (fun c => c.number)) :
    ∃ p ∈ l, y = p.1 := by
  simp only [List.mem_map, List.mem_flatMap] at hy
  obtain ⟨c, ⟨p, hp, hc⟩, rfl⟩ := hy
  exact ⟨p, hp, hh p hp c hc⟩

theorem pairwise_flat_numbers (l : Options)
    (hp : l.Pairwise (fun a b => a.1 ≤ b.1))
    (hh : ∀ p ∈ l, ∀ c ∈ p.2, c.number = p.1) :
    ((l.flatMap (fun p => p.2)).map (fun c => c.number)).Pairwise (· ≤ ·) := by
  induction l with
  | nil => simp
  | cons q rest ih =>
    rw [List.pairwise_cons] at hp
    simp only [List.flatMap_cons, List.map_append]
    rw [List.pairwise_append]
    have hq : ∀ c ∈ q.2, c.number = q.1 :=
      fun c hc => hh q (List.mem_cons_self _ _) c hc
    have hhr : ∀ p ∈ rest, ∀ c ∈ p.2, c.number = p.1 :=
      fun p hps => hh p (List.mem_cons_of_mem _ hps)
    refine ⟨?_, ih hp.2 hhr, ?_⟩
    · apply pairwise_const _ q.1
      intro x hx
      simp only [List.mem_map] at hx
      obtain ⟨c, hc, rfl⟩ := hx
      exact hq c hc
    · intro x hx y hy
      have hxq : x = q.1 := by
        simp only [List.mem_map] at hx
        obtain ⟨c, hc, rfl⟩ := hx
        exact hq c hc
      obtain ⟨p, hpr, rfl⟩ := mem_flat_number rest hhr y hy
      rw [hxq]
      exact hp.1 p hpr

theorem optionList_numbers_pairwise (o : Options)
    (hh : ∀ p ∈ o, ∀ c ∈ p.2, c.number = p.1) :
    ((Options.optionList o).map (fun c => c.number)).Pairwise (· ≤ ·) := by
  apply pairwise_flat_numbers (sortOpts o) (sortOpts_pairwise o)
  intro p hp
  exact hh p ((sortOpts_perm o).mem_iff.mp hp)

theorem mem_optionList (o : Options) (c : COpt)
    (hc : c ∈ Options.optionList o) : ∃ p ∈ o, c ∈ p.2 := by
  rw [Options.optionList, List.mem_flatMap] at hc
  obtain ⟨p, hp, hcp⟩ := hc
  exact ⟨p, (sortOpts_perm o).mem_iff.mp hp, hcp⟩

theorem filter_optionList (o : Options) (hnd : (o.map Prod.fst).Nodup)
    (hh : ∀ p ∈ o, ∀ c ∈ p.2, c.number = p.1) (n : Nat) :
    (Options.optionList o).filter (fun c => c.number == n) =
      (Options.getOption n o).getD [] := by
  have hnd' : ((sortOpts o).map Prod.fst).Nodup :=
    ((List.Perm.map Prod.fst (sortOpts_perm o)).nodup_iff).mpr hnd
  have hh' : ∀ p ∈ sortOpts o, ∀ c ∈ p.2, c.number = p.1 :=
    fun p hp => hh p ((sortOpts_perm o).mem_iff.mp hp)
  rw [Options.optionList, filter_flat_groups (sortOpts o) hnd' hh' n,
    getOption_sortOpts o hnd n]

theorem equivGroups_regroup (o : Options) (h : WFOptions o) :
    Options.equivGroups (regroup o) o := by
  intro n
  unfold regroup
  rw [getOption_foldl_addOption (Options.optionList o) [] n]
  have hfil := filter_optionList o h.1
    (fun p hp c hc => ((h.2 p hp).2.2 c hc).1) n
  rcases hg : Options.getOption n o with _ | vs
  · rw [hg] at hfil
    rw [if_pos (by rw [hfil]; rfl)]
    rfl
  · rw [hg] at hfil
    have hne : vs ≠ [] := (h.2 (n, vs) (getOption_mem o n vs hg)).2.1
    rw [if_neg (by rw [hfil]; exact hne)]
    rw [hfil]
    rfl

/-! Encode loop lemmas. -/

set_option maxHeartbeats 1600000 in
theorem encodeOptsLoop_cons_inv (cur : Nat) (o : COpt) (rest : List COpt)
    (bs : List Nat) (h : encodeOptsLoop cur (o :: rest) = some bs) :
    ∃ d ed l el v tb,
      writeExtendedFieldValue ((o.number : Int) - (cur : Int)) = some (d, ed) ∧
      writeExtendedFieldValue ((OptValue.length o.value : Int)) = some (l, el) ∧
      OptValue.encode o.value = some v ∧
      encodeOptsLoop o.number rest = some tb ∧
      bs = (d % 16 * 16 + l % 16) :: (ed ++ el ++ v ++ tb) := by
  simp only [encodeOptsLoop] at h
  rcases hw1 : writeExtendedFieldValue ((o.number : Int) - (cur : Int)) with
    _ | ⟨d, ed⟩
  · simp only [hw1] at h
    exact absurd h (by simp)
  · simp only [hw1] at h
    rcases hw2 : writeExtendedFieldValue ((OptValue.length o.value : Int)) with
      _ | ⟨l, el⟩
    · simp only [hw2] at h
      exact absurd h (by simp)
    · simp only [hw2] at h
      rcases hv : OptValue.encode o.value with _ | v
      · simp only [hv] at h
        exact absurd h (by simp)
      · simp only [hv] at h
        rcases ht : encodeOptsLoop o.number rest with _ | tb
        · simp only [ht] at h
          exact absurd h (by simp)
        · simp only [ht, Option.some.injEq] at h
          exact ⟨d, ed, l, el, v, tb, rfl, rfl, rfl, rfl, h.symm⟩

theorem encodeOptsLoop_length_le (os : List COpt) : ∀ cur bs,
    encodeOptsLoop cur os = some bs → os.length ≤ bs.length := by
  induction os with
  | nil => intro cur bs _; simp
  | cons o rest ih =>
    intro cur bs h
    obtain ⟨d, ed, l, el, v, tb, _, _, _, ht, rfl⟩ :=
      encodeOptsLoop_cons_inv cur o rest bs h
    have := ih o.number tb ht
    simp only [List.length_cons, List.length_append]
    omega

theorem encodeOptsLoop_head (os : List COpt) (cur : Nat) (bs : List Nat)
    (h : encodeOptsLoop cur os = some bs) :
    ∀ b, bs.head? = some b → b ≠ 255 := by
  cases os with
  | nil =>
    simp only [encodeOptsLoop, Option.some.injEq] at h
    subst h
    intro b hb
    simp at hb
  | cons o rest =>
    obtain ⟨d, ed, l, el, v, tb, hw1, hw2, _, _, rfl⟩ :=
      encodeOptsLoop_cons_inv cur o rest bs h
    have hd := (writeExtendedFieldValue_bounds _ _ _ hw1).2.2
    have hl := (writeExtendedFieldValue_bounds _ _ _ hw2).2.2
    intro b hb
    simp only [List.head?_cons, Option.some.injEq] at hb
    omega

theorem encodeOptsLoop_isSome (os : List COpt) : ∀ cur : Nat,
    (∀ o ∈ os, wfValue o.number o.value = true ∧ o.number < 65804) →
    ((cur :: os.map (fun o => o.number)).Pairwise (· ≤ ·)) →
    ∃ bs, encodeOptsLoop cur os = some bs := by
  induction os with
  | nil => intro cur _ _; exact ⟨[], rfl⟩
  | cons o rest ih =>
    intro cur hwf hp
    have hmem := hwf o (List.mem_cons_self _ _)
    have hcur : cur ≤ o.number := by
      rw [List.pairwise_cons] at hp
      exact hp.1 o.number (by simp)
    have hw1 : ∃ x, writeExtendedFieldValue ((o.number : Int) - (cur : Int)) =
        some x := by
      rw [← Option.isSome_iff_exists]
      have h1 : (0 : Int) ≤ (o.number : Int) - (cur : Int) := by omega
      have h2 : ((o.number : Int) - (cur : Int)) < 65804 := by
        have := hmem.2
        omega
      exact writeExtendedFieldValue_isSome _ h1 h2
    obtain ⟨⟨d, ed⟩, hw1⟩ := hw1
    have hw2 : ∃ x, writeExtendedFieldValue ((OptValue.length o.value : Int)) =
        some x := by
      rw [← Option.isSome_iff_exists]
      have := optionValueLength_lt o.number o.value hmem.1
      refine writeExtendedFieldValue_isSome _ (by positivity) ?_
      exact_mod_cast this
    obtain ⟨⟨l, el⟩, hw2⟩ := hw2
    obtain ⟨v, hv, _, _⟩ := wfValue_codec o.number o.value hmem.1
    have hrest : ∃ tb, encodeOptsLoop o.number rest = some tb := by
      apply ih o.number (fun x hx => hwf x (List.mem_cons_of_mem _ hx))
      rw [List.pairwise_cons] at hp ⊢
      constructor
      · intro a ha
        exact (List.pairwise_cons.mp hp.2).1 a ha
      · exact (List.pairwise_cons.mp hp.2).2
    obtain ⟨tb, ht⟩ := hrest
    refine ⟨(d % 16 * 16 + l % 16) :: (ed ++ el ++ v ++ tb), ?_⟩
    simp only [encodeOptsLoop, hw1, hw2, hv, ht]

/-! Decoding an encoded option sequence. -/

theorem decodeOptsFuel_append (os : List COpt) : ∀ (cur : Nat) (acc : Options)
    (tail bs : List Nat) (fuel : Nat),
    encodeOptsLoop cur os = some bs →
    (∀ o ∈ os, wfValue o.number o.value = true) →
    os.length ≤ fuel →
    decodeOptsFuel fuel cur acc (bs ++ tail) =
      decodeOptsFuel (fuel - os.length) (endNumber cur os)
        (os.foldl Options.addOption acc) tail := by
  induction os with
  | nil =>
    intro cur acc tail bs fuel h _ _
    simp only [encodeOptsLoop, Option.some.injEq] at h
    subst h
    simp [endNumber]
  | cons o rest ih =>
    intro cur acc tail bs fuel h hwf hfuel
    obtain ⟨d, ed, l, el, v, tb, hw1, hw2, hv, ht, rfl⟩ :=
      encodeOptsLoop_cons_inv cur o rest bs h
    simp only [List.length_cons] at hfuel
    obtain ⟨f, rfl⟩ : ∃ f, fuel = f + 1 := ⟨fuel - 1, by omega⟩
    have hb1 := writeExtendedFieldValue_bounds _ _ _ hw1
    have hb2 := writeExtendedFieldValue_bounds _ _ _ hw2
    obtain ⟨v', hv', hlen, hdec⟩ :=
      wfValue_codec o.number o.value (hwf o (List.mem_cons_self _ _))
    rw [hv] at hv'
    obtain rfl := Option.some.inj hv'
    have hhdr : ¬(d % 16 * 16 + l % 16 = 255) := by omega
    have e1 : (d % 16 * 16 + l % 16) / 16 % 16 = d := by omega
    have e2 : (d % 16 * 16 + l % 16) % 16 = l := by omega
    simp only [List.cons_append, decodeOptsFuel, if_neg hhdr, e1, e2,
      List.append_eq, List.append_assoc]
    simp only [readExtendedFieldValue_write _ _ _ hw1,
      readExtendedFieldValue_write _ _ _ hw2, Int.toNat_natCast]
    have hn : cur + ((o.number : Int) - (cur : Int)).toNat = o.number := by
      omega
    rw [hn, ← hlen, List.take_left, List.drop_left, hdec]
    have hstep : decodeOptsFuel f o.number
        (Options.addOption acc ⟨o.number, o.value⟩) (tb ++ tail) =
        decodeOptsFuel (f - rest.length) (endNumber o.number rest)
          (rest.foldl Options.addOption (Options.addOption acc o)) tail :=
      ih o.number (Options.addOption acc o) tail tb f ht
        (fun x hx => hwf x (List.mem_cons_of_mem _ hx)) (by omega)
    rw [hstep]
    have hfe : f + 1 - (rest.length + 1) = f - rest.length := by omega
    simp only [endNumber, List.foldl_cons, List.length_cons, hfe]

/-! Round-trip of a well-formed message. -/

theorem decodeOptsFuel_marker (fuel cur : Nat) (acc : Options) (p : List Nat) :
    decodeOptsFuel fuel cur acc (255 :: p) = some (acc, p) := by
  cases fuel <;> rfl

theorem decodeOptsFuel_nil (fuel cur : Nat) (acc : Options) :
    decodeOptsFuel fuel cur acc [] = some (acc, []) := by
  cases fuel <;> rfl

/-- C1 (amended): for every well-formed message — version 1, type and
message id set and in range, code a byte, token at most 8 bytes, and
every stored option value of its registered type, in range, and (the
amendment) no Block option with the packed-zero descriptor
`(0, False, 0)` — decoding the encoding succeeds and yields the message
with the same version, type, code, message id, token and payload, whose
options are the same ordered groups per option number
(`Options.equivGroups`).  The packed-zero descriptor must be excluded
because its reported option length (1) exceeds its encoded size (0
bytes), which desynchronises the decoder; see the counterexample. -/
theorem roundtrip_decode_encode (m : Message) (h : WFMessage m) :
    (Message.encode m).bind Message.decode =
      some { m with opt := regroup m.opt } ∧
    Options.equivGroups (regroup m.opt) m.opt := by
  obtain ⟨h1, h2, h3, h4, h5, h6, h7, _, _, h10⟩ := h
  rcases hmt : m.mtype with _ | t
  · exact absurd hmt h2
  rcases hmi : m.mid with _ | i
  · exact absurd hmi h4
  rw [hmt] at h3
  rw [hmi] at h5
  simp only [Option.getD_some] at h3 h5
  refine ⟨?_, equivGroups_regroup m.opt h10⟩
  have hhomog : ∀ p ∈ m.opt, ∀ c ∈ p.2, c.number = p.1 :=
    fun p hp c hc => ((h10.2 p hp).2.2 c hc).1
  have hwfopts : ∀ c ∈ Options.optionList m.opt,
      wfValue c.number c.value = true ∧ c.number < 65804 := by
    intro c hc
    obtain ⟨p, hp, hcp⟩ := mem_optionList m.opt c hc
    have hw := h10.2 p hp
    have hcn := (hw.2.2 c hcp).1
    exact ⟨(hw.2.2 c hcp).2, by rw [hcn]; exact hw.1⟩
  have hsorted : ((0 : Nat) ::
      (Options.optionList m.opt).map (fun c => c.number)).Pairwise (· ≤ ·) := by
    rw [List.pairwise_cons]
    exact ⟨fun a _ => Nat.zero_le a, optionList_numbers_pairwise m.opt hhomog⟩
  obtain ⟨ob, hob⟩ :=
    encodeOptsLoop_isSome (Options.optionList m.opt) 0 hwfopts hsorted
  have hosl : (Options.optionList m.opt).length ≤ ob.length :=
    encodeOptsLoop_length_le _ 0 ob hob
  have hme : Message.encode m =
      some ((m.version * 64 + t % 4 * 16 + m.token.length % 16) ::
        m.code :: (i / 256) :: (i % 256) ::
        (m.token ++ ob ++
          (if 0 < m.payload.length then 255 :: m.payload else []))) := by
    simp only [Message.encode, hmt, hmi, Options.encode, hob]
    rw [if_pos ⟨h6, h5⟩]
  rw [hme, Option.some_bind]
  have hod : Options.decode
      (ob ++ (if 0 < m.payload.length then 255 :: m.payload else [])) =
      some (regroup m.opt, m.payload) := by
    rw [Options.decode]
    rw [decodeOptsFuel_append (Options.optionList m.opt) 0 [] _ ob _ hob
      (fun c hc => (hwfopts c hc).1)
      (by rw [List.length_append]; omega)]
    by_cases hp : 0 < m.payload.length
    · rw [if_pos hp, decodeOptsFuel_marker, regroup]
    · rw [if_neg hp]
      have hpe : m.payload = [] := by simpa using hp
      rw [decodeOptsFuel_nil, regroup, hpe]
  simp only [Message.decode]
  have hv1 : (m.version * 64 + t % 4 * 16 + m.token.length % 16) / 64 % 4 = 1 := by
    rw [h1]
    omega
  rw [if_pos hv1]
  have htk : (m.version * 64 + t % 4 * 16 + m.token.length % 16) % 16 =
      m.token.length := by
    rw [h1]
    omega
  have hmt4 : (m.version * 64 + t % 4 * 16 + m.token.length % 16) / 16 % 4 = t := by
    rw [h1]
    omega
  rw [htk, hmt4, List.append_assoc, List.take_left, List.drop_left]
  simp only [hod]
  have hmid : i / 256 * 256 + i % 256 = i := by omega
  rw [hmid]
  refine congrArg some ?_
  rw [h1]

/-! Deleting and re-adding options. -/

theorem getOption_deleteOption (k n : Nat) (o : Options) :
    Options.getOption n (Options.deleteOption k o) =
      if k = n then none else Options.getOption n o := by
  induction o with
  | nil =>
    simp only [Options.deleteOption, List.filter_nil]
    split <;> rfl
  | cons q rest ih =>
    obtain ⟨j, vs⟩ := q
    by_cases hj : j = k
    · subst hj
      have hf : Options.deleteOption j ((j, vs) :: rest) =
          Options.deleteOption j rest := by
        simp [Options.deleteOption]
      rw [hf, ih]
      by_cases hn : j = n
      · rw [if_pos hn, if_pos hn]
      · rw [if_neg hn, if_neg hn, Options.getOption, if_neg hn]
    · have hf : Options.deleteOption k ((j, vs) :: rest) =
          (j, vs) :: Options.deleteOption k rest := by
        simp [Options.deleteOption, hj]
      rw [hf]
      by_cases hn : j = n
      · rw [Options.getOption, if_pos hn, Options.getOption, if_pos hn,
          if_neg (by omega)]
      · rw [Options.getOption, if_neg hn, ih, Options.getOption, if_neg hn]

theorem getOption_setBlock2 (o : Options) (bn : Nat) (more : Bool) (se : Nat)
    (n : Nat) :
    Options.getOption n (Options.setBlock2 o bn more se) =
      if n = 23 then some [⟨23, OptValue.block bn more se⟩]
      else Options.getOption n o := by
  rw [Options.setBlock2, getOption_addOption]
  by_cases hn : n = 23
  · rw [if_pos (show (⟨23, OptValue.block bn more se⟩ : COpt).number = n by
      simp [hn])]
    rw [if_pos hn]
    subst hn
    rw [getOption_deleteOption, if_pos rfl]
    rfl
  · rw [if_neg (by simpa using fun he => hn he.symm), if_neg hn,
      getOption_deleteOption, if_neg (by omega)]

theorem generateNext_opts (o : Options) (bn : Nat) (more : Bool) (se : Nat) :
    Options.block2 (Options.deleteOption 6 (Options.deleteOption 27
        (Options.setBlock2 o bn more se))) =
      some (OptValue.block bn more se) ∧
    Options.getOption 27 (Options.deleteOption 6 (Options.deleteOption 27
        (Options.setBlock2 o bn more se))) = none ∧
    Options.getOption 6 (Options.deleteOption 6 (Options.deleteOption 27
        (Options.setBlock2 o bn more se))) = none ∧
    ∀ n, n ≠ 23 → n ≠ 27 → n ≠ 6 →
      Options.getOption n (Options.deleteOption 6 (Options.deleteOption 27
        (Options.setBlock2 o bn more se))) = Options.getOption n o := by
  refine ⟨?_, ?_, ?_, ?_⟩
  · rw [Options.block2, getOption_deleteOption, if_neg (by omega),
      getOption_deleteOption, if_neg (by omega), getOption_setBlock2,
      if_pos rfl]
    rfl
  · rw [getOption_deleteOption, if_neg (by omega), getOption_deleteOption,
      if_pos rfl]
  · rw [getOption_deleteOption, if_pos rfl]
  · intro n hn23 hn27 hn6
    rw [getOption_deleteOption, if_neg (by omega), getOption_deleteOption,
      if_neg (by omega), getOption_setBlock2, if_neg hn23]

/-- C4: when the incoming block's Block1 (for the request-append) or
Block2 (for the response-append) implies an offset
`block_number * 2^(size_exponent+4)` different from the accumulated
payload length, the append operation fails with the block-sequence error
and, the embedding being functional, returns no updated accumulator. -/
theorem claim_C4_sequence (acc nb : Message) (bn : Nat) (more : Bool)
    (se : Nat) :
    (isRequest acc.code = true →
      Options.block1 nb.opt = some (OptValue.block bn more se) →
      bn * 2 ^ (se + 4) ≠ acc.payload.length →
      Message.appendRequestBlock acc nb =
        Except.error CoapError.blockSequenceError) ∧
    (isResponse acc.code = true →
      Options.block2 nb.opt = some (OptValue.block bn more se) →
      bn * 2 ^ (se + 4) ≠ acc.payload.length →
      Message.appendResponseBlock acc nb =
        Except.error CoapError.blockSequenceError) := by
  constructor
  · intro h1 h2 h3
    simp only [Message.appendRequestBlock, h1, h2, if_true]
    rw [if_neg h3]
  · intro h1 h2 h3
    simp only [Message.appendResponseBlock, h1, h2, if_true]
    rw [if_neg h3]

/-- C4 witness: concrete out-of-sequence request and response blocks. -/
theorem claim_C4_witness :
    Message.appendRequestBlock reqAccum reqBlockGap =
      Except.error CoapError.blockSequenceError ∧
    Message.appendResponseBlock respAccum respBlockGap =
      Except.error CoapError.blockSequenceError :=
  ⟨(claim_C4_sequence reqAccum reqBlockGap 1 false 0).1 (by decide) (by decide)
      (by decide),
    (claim_C4_sequence respAccum respBlockGap 2 false 0).2 (by decide)
      (by decide) (by decide)⟩

/-- C8: a response block whose offset is contiguous with the accumulated
payload but whose ETag differs from the accumulator's makes
`appendResponseBlock` fail with the resource-changed error; the embedding
being functional, the accumulator's payload is not extended. -/
theorem claim_C8_etag (acc nb : Message) (bn : Nat) (more : Bool) (se : Nat)
    (h1 : isResponse acc.code = true)
    (h2 : Options.block2 nb.opt = some (OptValue.block bn more se))
    (h3 : bn * 2 ^ (se + 4) = acc.payload.length)
    (h4 : Options.etag nb.opt ≠ Options.etag acc.opt) :
    Message.appendResponseBlock acc nb =
      Except.error CoapError.resourceChanged := by
  simp only [Message.appendResponseBlock, h1, h2, if_true]
  rw [if_pos h3, if_pos h4]

/-- C8 witness: a contiguous block with a changed ETag. -/
theorem claim_C8_witness :
    Message.appendResponseBlock respAccum respBlockTag =
      Except.error CoapError.resourceChanged :=
  claim_C8_etag respAccum respBlockTag 0 false 2 (by decide) (by decide)
    (by decide) (by decide)

theorem generateNextBlock2Request_eq (self resp : Message) (bn se : Nat)
    (more : Bool)
    (h : Options.block2 resp.opt = some (OptValue.block bn more se)) :
    Message.generateNextBlock2Request self resp = Except.ok { self with
      payload := [],
      mid := none,
      opt := Options.deleteOption 6 (Options.deleteOption 27
        (if bn = 0 ∧ DEFAULT_BLOCK_SIZE_EXP < se then
          Options.setBlock2 self.opt (2 ^ (se - DEFAULT_BLOCK_SIZE_EXP)) false
            DEFAULT_BLOCK_SIZE_EXP
        else Options.setBlock2 self.opt (bn + 1) false se)) } := by
  simp only [Message.generateNextBlock2Request, h]

/-- C9: `generateNextBlock2Request` clones the original request with
empty payload and cleared message id and strips Block1 and Observe.
When the received response's Block2 is `(0, any, 6)` and the default
exponent is 2, the new Block2 is `(16, False, 2)` (negotiating down to
the sub-block `2^(6-2) = 16` of the default size); whenever the received
block number is non-zero or the received size exponent is at most the
default, the new Block2 is `(block_number + 1, False, size_exponent)`. -/
theorem claim_C9_negotiation (req resp : Message) (bn se n : Nat) (more : Bool)
    (h : Options.block2 resp.opt = some (OptValue.block bn more se)) :
    ((bn = 0 ∧ se = 6) →
      (Message.generateNextBlock2Request req resp).map
        (fun r => (r.payload, r.mid, Options.block2 r.opt,
          Options.getOption 27 r.opt, Options.getOption 6 r.opt,
          r.token, r.code, r.mtype)) =
        Except.ok (([] : List Nat), none, some (OptValue.block 16 false 2),
          none, none, req.token, req.code, req.mtype) ∧
      (n ≠ 23 → n ≠ 27 → n ≠ 6 →
        (Message.generateNextBlock2Request req resp).map
          (fun r => Options.getOption n r.opt) =
          Except.ok (Options.getOption n req.opt))) ∧
    ((bn ≠ 0 ∨ se ≤ DEFAULT_BLOCK_SIZE_EXP) →
      (Message.generateNextBlock2Request req resp).map
        (fun r => Options.block2 r.opt) =
        Except.ok (some (OptValue.block (bn + 1) false se))) := by
  constructor
  · rintro ⟨rfl, rfl⟩
    rw [generateNextBlock2Request_eq req resp 0 6 more h]
    rw [if_pos (by norm_num [DEFAULT_BLOCK_SIZE_EXP] :
      (0 = 0 ∧ DEFAULT_BLOCK_SIZE_EXP < 6))]
    have hpow : (2 : Nat) ^ (6 - DEFAULT_BLOCK_SIZE_EXP) = 16 := by
      norm_num [DEFAULT_BLOCK_SIZE_EXP]
    rw [hpow]
    have hg := generateNext_opts req.opt 16 false DEFAULT_BLOCK_SIZE_EXP
    constructor
    · simp only [Except.map]
      rw [show DEFAULT_BLOCK_SIZE_EXP = 2 from rfl] at hg ⊢
      simp only [hg.1, hg.2.1, hg.2.2.1]
    · intro hn23 hn27 hn6
      simp only [Except.map]
      rw [show DEFAULT_BLOCK_SIZE_EXP = 2 from rfl] at hg ⊢
      simp only [hg.2.2.2 n hn23 hn27 hn6]
  · intro hor
    rw [generateNextBlock2Request_eq req resp bn se more h]
    have hcond : ¬(bn = 0 ∧ DEFAULT_BLOCK_SIZE_EXP < se) := by
      rw [DEFAULT_BLOCK_SIZE_EXP]
      rw [DEFAULT_BLOCK_SIZE_EXP] at hor
      rcases hor with h0 | hle
      · tauto
      · omega
    rw [if_neg hcond]
    have hg := generateNext_opts req.opt (bn + 1) false se
    simp only [Except.map]
    simp only [hg.1]

/-- C9 witness: negotiating a `(0, True, 6)` offer down to
`(16, False, 2)` with the unrelated option 11 preserved, and requesting
`(4, False, 2)` after a middle block `(3, True, 2)`. -/
theorem claim_C9_witness :
    ((Message.generateNextBlock2Request origReq respBigBlock).map
      (fun r => (r.payload, r.mid, Options.block2 r.opt,
        Options.getOption 27 r.opt, Options.getOption 6 r.opt,
        r.token, r.code, r.mtype)) =
      Except.ok (([] : List Nat), none, some (OptValue.block 16 false 2),
        none, none, origReq.token, origReq.code, origReq.mtype)) ∧
    ((Message.generateNextBlock2Request origReq respBigBlock).map
      (fun r => Options.getOption 11 r.opt) =
      Except.ok (Options.getOption 11 origReq.opt)) ∧
    ((Message.generateNextBlock2Request origReq respMidBlock).map
      (fun r => Options.block2 r.opt) =
      Except.ok (some (OptValue.block 4 false 2))) :=
  ⟨((claim_C9_negotiation origReq respBigBlock 0 6 11 true (by decide)).1
      ⟨rfl, rfl⟩).1,
    ((claim_C9_negotiation origReq respBigBlock 0 6 11 true (by decide)).1
      ⟨rfl, rfl⟩).2 (by decide) (by decide) (by decide),
    (claim_C9_negotiation origReq respMidBlock 3 2 11 true (by decide)).2
      (Or.inl (by decide))⟩

/-- C1 counterexample: `msgBlockZero` has version 1, type and message id
set, a token of at most 8 bytes, a Block2 option holding the legitimate
block descriptor `(0, False, 0)` (first block, no more, size 16) and a
one-byte payload, yet decoding its encoding yields a different message:
the payload is lost and the options change, because the Block option
reports length 1 while encoding zero value bytes. -/
theorem claim_C1_counterexample :
    (Message.encode msgBlockZero).bind Message.decode =
      some msgBlockZeroDecoded ∧
    msgBlockZeroDecoded.payload ≠ msgBlockZero.payload ∧
    (Message.encode msgBlockZero).bind Message.decode ≠
      some msgBlockZero := by
  decide

/-- C1 witness: a concrete well-formed message with repeated Uri-Path
options, an ETag containing `0xFF`, a Block2 option, a zero-valued
Content-Format, a token and a payload round-trips. -/
theorem claim_C1_witness :
    WFMessage msgRoundTrip ∧
    ((Message.encode msgRoundTrip).bind Message.decode =
      some { msgRoundTrip with opt := regroup msgRoundTrip.opt } ∧
     Options.equivGroups (regroup msgRoundTrip.opt) msgRoundTrip.opt) :=
  ⟨by decide, roundtrip_decode_encode msgRoundTrip (by decide)⟩

/-- C2 (amended): when the declared option length exceeds the bytes
remaining after the option's header and extension bytes, the options
decoder does not fail: the Python slices silently truncate, so the
option value is decoded from the remaining bytes only and the rest of
the datagram is consumed, and the loop returns successfully.  (The
claim's "fails with MalformedMessage" is false: the source performs no
length check at all.) -/
theorem claim_C2_truncation (fuel cur : Nat) (acc : Options) (b : Nat)
    (rest raw1 raw2 : List Nat) (delta len : Nat)
    (hb : ¬b = 255)
    (h1 : readExtendedFieldValue (b / 16 % 16) rest = some (delta, raw1))
    (h2 : readExtendedFieldValue (b % 16) raw1 = some (len, raw2))
    (h3 : raw2.length < len) (hf : 0 < fuel) :
    decodeOptsFuel fuel cur acc (b :: rest) =
      some (Options.addOption acc
        ⟨cur + delta, decodeOptionValue (cur + delta) raw2⟩, []) := by
  obtain ⟨f, rfl⟩ : ∃ f, fuel = f + 1 := ⟨fuel - 1, by omega⟩
  simp only [decodeOptsFuel]
  rw [if_neg hb]
  simp only [h1, h2]
  rw [List.take_of_length_le (le_of_lt h3),
    List.drop_eq_nil_of_le (le_of_lt h3)]
  exact decodeOptsFuel_nil f (cur + delta) _

/-- C2 counterexample: the one-byte input `[0x01]` declares an option of
number 0 with length 1 and provides zero value bytes; decoding succeeds
(no failure) and stores the option with an empty, silently truncated
value. -/
theorem claim_C2_counterexample :
    Options.decode [1] = some ([(0, [⟨0, OptValue.str []⟩])], []) ∧
    Options.decode [1] ≠ none := by
  decide

/-- C2 witness: the truncation theorem applied to the input `[0x01]`. -/
theorem claim_C2_witness :
    decodeOptsFuel 1 0 [] [1] =
      some (Options.addOption [] ⟨0, decodeOptionValue 0 []⟩, []) :=
  claim_C2_truncation 1 0 [] 1 [] [] [] 0 1 (by decide) (by decide)
    (by decide) (by decide) (by decide)

/-- C3 (amended): for every block descriptor with `size_exponent < 8`
and `block_number < 2^28`, the Block option's encode produces the
canonical minimal big-endian bytes of the packed integer
`(block_number << 4) | (more ? 8 : 0) | size_exponent`; the reported
byte length equals the number of encoded bytes whenever the packed
integer is non-zero, but for the packed-zero descriptor `(0, False, 0)`
encode produces zero bytes while the reported length is 1 (the claim's
unconditional length equality is false there). -/
theorem claim_C3_block (bn : Nat) (more : Bool) (se : Nat)
    (h1 : se < 8) (h2 : bn < 268435456) :
    OptValue.encode (OptValue.block bn more se) =
      some (minBE (blockPacked bn more se)) ∧
    (blockPacked bn more se ≠ 0 →
      (minBE (blockPacked bn more se)).length =
        OptValue.length (OptValue.block bn more se)) ∧
    (blockPacked bn more se = 0 →
      minBE (blockPacked bn more se) = [] ∧
      OptValue.length (OptValue.block bn more se) = 1) := by
  have hlt : blockPacked bn more se < 4294967296 := by
    simp only [blockPacked]
    cases more <;> simp <;> omega
  refine ⟨?_, ?_, ?_⟩
  · simp only [OptValue.encode]
    rw [if_pos hlt, lstrip0_natBE4 _ hlt]
  · intro hp0
    rw [minBE_length _ (by omega) hlt]
    simp only [OptValue.length]
    rcases Nat.eq_zero_or_pos bn with rfl | hbn0
    · have hsmall : blockPacked 0 more se < 16 := by
        simp only [blockPacked]
        cases more <;> simp <;> omega
      have hbl : bitLength (blockPacked 0 more se) ≤ 4 := by
        rw [bitLength_le_iff]
        norm_num
        omega
      have hbl0 : 0 < bitLength (blockPacked 0 more se) :=
        bitLength_pos _ (by omega)
      rw [bitLength_zero]
      omega
    · rw [bitLength_blockPacked bn more se hbn0 h1]
      have := bitLength_pos bn hbn0
      omega
  · intro hp0
    have hbn0 : bn = 0 ∧ se = 0 := by
      simp only [blockPacked] at hp0
      cases more <;> simp at hp0 <;> omega
    rw [hp0, minBE_zero]
    refine ⟨rfl, ?_⟩
    simp only [OptValue.length]
    rw [hbn0.1, bitLength_zero]

/-- C3 counterexample: the descriptor `(0, False, 0)` packs to 0, whose
encoding is zero bytes, while the reported length
`(0.bit_length() + 3) / 8 + 1 = 1` does not equal the byte count. -/
theorem claim_C3_counterexample :
    OptValue.encode (OptValue.block 0 false 0) = some [] ∧
    OptValue.length (OptValue.block 0 false 0) = 1 ∧
    ([] : List Nat).length ≠ 1 := by
  decide

/-- C3 witness: the amended theorem at the descriptor `(1, False, 0)`. -/
theorem claim_C3_witness :
    OptValue.encode (OptValue.block 1 false 0) =
      some (minBE (blockPacked 1 false 0)) ∧
    (blockPacked 1 false 0 ≠ 0 →
      (minBE (blockPacked 1 false 0)).length =
        OptValue.length (OptValue.block 1 false 0)) ∧
    (blockPacked 1 false 0 = 0 →
      minBE (blockPacked 1 false 0) = [] ∧
      OptValue.length (OptValue.block 1 false 0) = 1) :=
  claim_C3_block 1 false 0 (by decide) (by decide)

/-- C5 (amended): the encoding of a message is exactly the fixed header,
the token, the encoded options, and then nothing when the payload is
empty, or a single `0xFF` marker byte immediately followed by the
payload when it is non-empty; moreover the encoded options block never
begins with `0xFF` (every option header byte has both nibbles at most
14), so the marker is unambiguous at the options/payload boundary.  The
claim's stronger "the encoded byte string never contains 0xFF / contains
exactly one 0xFF" is false: header, message-id, token, extension and
value bytes may each be `0xFF` (see the counterexample). -/
theorem claim_C5_marker (m : Message) (t i : Nat) (ob : List Nat)
    (hmt : m.mtype = some t) (hmi : m.mid = some i) (hc : m.code < 256)
    (hi : i < 65536) (hob : Options.encode m.opt = some ob) :
    Message.encode m =
      some ((m.version * 64 + t % 4 * 16 + m.token.length % 16) ::
        m.code :: (i / 256) :: (i % 256) ::
        (m.token ++ ob ++
          (if 0 < m.payload.length then 255 :: m.payload else []))) ∧
    (∀ b, ob.head? = some b → b ≠ 255) := by
  constructor
  · simp only [Message.encode, hmt, hmi, hob]
    rw [if_pos ⟨hc, hi⟩]
  · intro b hb
    have he : Options.encode m.opt =
        encodeOptsLoop 0 (Options.optionList m.opt) := rfl
    rw [he] at hob
    exact encodeOptsLoop_head (Options.optionList m.opt) 0 ob hob b hb

/-- C5 counterexample: a message with empty payload whose message id is
`0xFFFF` encodes to `[0x40, 0x00, 0xFF, 0xFF]`, which contains `0xFF`
bytes although no payload marker was emitted. -/
theorem claim_C5_counterexample :
    Message.encode msgEmptyPayload = some [64, 0, 255, 255] ∧
    msgEmptyPayload.payload = [] ∧
    (255 : Nat) ∈ [64, 0, 255, 255] := by
  decide

/-- C5 witness: the marker theorem at a message with one ETag option and
a non-empty payload containing `0xFF`. -/
theorem claim_C5_witness :
    Message.encode msgMarker =
      some ((msgMarker.version * 64 + 0 % 4 * 16 +
          msgMarker.token.length % 16) ::
        msgMarker.code :: (7 / 256) :: (7 % 256) ::
        (msgMarker.token ++ [65, 170] ++
          (if 0 < msgMarker.payload.length then 255 :: msgMarker.payload
           else []))) ∧
    (∀ b, ([65, 170] : List Nat).head? = some b → b ≠ 255) :=
  claim_C5_marker msgMarker 0 7 [65, 170] (by decide) (by decide)
    (by decide) (by decide) (by decide)

/-- C6 (amended): the variable-length field codec satisfies the
threshold table `12 ↦ (12, [])`, `13 ↦ (13, [0x00])`,
`268 ↦ (13, [0xFF])`, `269 ↦ (14, [0x00, 0x00])` and
`65803 ↦ (14, [0xFF, 0xFE])` (the claim's `(14, [0xFF, 0xFF])` for 65803
is off by one: `65803 − 269 = 0xFFFE`); every value `≥ 65804` fails;
every value `0 ≤ v < 65804` encodes successfully; and decoding an
encoded nibble with its extension bytes returns the value and consumes
exactly those extension bytes. -/
theorem claim_C6_thresholds :
    writeExtendedFieldValue 12 = some (12, []) ∧
    writeExtendedFieldValue 13 = some (13, [0]) ∧
    writeExtendedFieldValue 268 = some (13, [255]) ∧
    writeExtendedFieldValue 269 = some (14, [0, 0]) ∧
    writeExtendedFieldValue 65803 = some (14, [255, 254]) ∧
    (∀ value : Int, 65804 ≤ value → writeExtendedFieldValue value = none) ∧
    (∀ value : Int, 0 ≤ value → value < 65804 →
      (writeExtendedFieldValue value).isSome = true) ∧
    (∀ (value : Int) (n : Nat) (ext rest : List Nat),
      writeExtendedFieldValue value = some (n, ext) →
      readExtendedFieldValue n (ext ++ rest) = some (value.toNat, rest)) :=
  ⟨by decide, by decide, by decide, by decide, by decide,
    writeExtendedFieldValue_none,
    fun v h0 h1 => writeExtendedFieldValue_isSome v h0 h1,
    fun v n ext rest h => readExtendedFieldValue_write v n ext h rest⟩

/-- C6 counterexample: `encode_field(65803)` is `(14, [0xFF, 0xFE])`, not
the `(14, [0xFF, 0xFF])` stated by the claim. -/
theorem claim_C6_counterexample :
    writeExtendedFieldValue 65803 = some (14, [255, 254]) ∧
    writeExtendedFieldValue 65803 ≠ some (14, [255, 255]) := by
  decide

/-- C6 witness: the encode/decode round-trip component at value 300,
whose encoding is `(14, [0x00, 0x1F])`. -/
theorem claim_C6_witness :
    readExtendedFieldValue 14 ([0, 31] ++ [9]) =
      some ((300 : Int).toNat, [9]) :=
  claim_C6_thresholds.2.2.2.2.2.2.2 300 14 [0, 31] [9] (by decide)

/-- C7: whatever multiset of options is added to a fresh container, in
any insertion order, the sequence of options visited by `encode`
(`Options.optionList`) is in non-decreasing option-number order — hence
every emitted delta is the difference of a non-decreasing sequence and
is never negative — and for every option number the visited options with
that number are exactly the added options with that number, in insertion
order.  This holds for arbitrary callers of `addOption`, by sorting at
encode time. -/
theorem claim_C7_ordering (os : List COpt) :
    ((Options.optionList (os.foldl Options.addOption [])).map
      (fun c => c.number)).Pairwise (· ≤ ·) ∧
    ∀ n, (Options.optionList (os.foldl Options.addOption [])).filter
        (fun c => c.number == n) = os.filter (fun c => c.number == n) := by
  have hnd : ((os.foldl Options.addOption []).map Prod.fst).Nodup :=
    foldl_addOption_nodup os [] (by simp)
  have hh : ∀ p ∈ os.foldl Options.addOption [], ∀ c ∈ p.2, c.number = p.1 :=
    foldl_addOption_homog os [] (by simp)
  constructor
  · exact optionList_numbers_pairwise _ hh
  · intro n
    rw [filter_optionList _ hnd hh n, getOption_foldl_addOption os [] n]
    by_cases hf : os.filter (fun c => c.number == n) = []
    · rw [if_pos hf, hf]
      rfl
    · rw [if_neg hf]
      simp [Options.getOption]

/-- C10: the unsigned-integer option codec is defined only below `2^32`.
For every `v < 2^32` (`4294967296`), encode produces the canonical
minimal big-endian bytes of `v`; for every `v ≥ 2^32` it fails
(`struct.pack("!L", v)` raises); the Block option's encode fails exactly
when the packed integer is `≥ 2^32`, which for a descriptor with
`size_exponent < 8` happens precisely when `block_number ≥ 2^28`
(`268435456`). -/
theorem claim_C10_uint32 :
    (∀ v : Nat, v < 4294967296 →
      OptValue.encode (OptValue.uint v) = some (minBE v)) ∧
    (∀ v : Nat, 4294967296 ≤ v →
      OptValue.encode (OptValue.uint v) = none) ∧
    (∀ (bn : Nat) (more : Bool) (se : Nat),
      4294967296 ≤ blockPacked bn more se →
      OptValue.encode (OptValue.block bn more se) = none) ∧
    (∀ (bn : Nat) (more : Bool) (se : Nat), se < 8 →
      (4294967296 ≤ blockPacked bn more se ↔ 268435456 ≤ bn)) := by
  refine ⟨?_, ?_, ?_, ?_⟩
  · intro v h
    simp only [OptValue.encode]
    rw [if_pos h, lstrip0_natBE4 v h]
  · intro v h
    simp only [OptValue.encode]
    rw [if_neg (by omega)]
  · intro bn more se h
    simp only [OptValue.encode]
    rw [if_neg (by omega)]
  · intro bn more se h
    simp only [blockPacked]
    cases more <;> simp <;> omega

/-- C10 witness: 256 encodes to its two minimal bytes, `2^32` fails as a
uint, the block descriptor `(2^28, False, 0)` fails to encode, and its
packed integer reaches `2^32` exactly at `block_number = 2^28`. -/
theorem claim_C10_witness :
    OptValue.encode (OptValue.uint 256) = some (minBE 256) ∧
    OptValue.encode (OptValue.uint 4294967296) = none ∧
    OptValue.encode (OptValue.block 268435456 false 0) = none ∧
    (4294967296 ≤ blockPacked 268435456 false 0 ↔ 268435456 ≤ 268435456) :=
  ⟨claim_C10_uint32.1 256 (by decide),
    claim_C10_uint32.2.1 4294967296 (by decide),
    claim_C10_uint32.2.2.1 268435456 false 0 (by decide),
    claim_C10_uint32.2.2.2 268435456 false 0 (by decide)⟩
